import Mathlib

/-!
Verification of the reclipper subtitle pipeline
(`subtitle_translator.py`, `video_processor.py`).

Python strings are modelled as `List Char`; the subtitle times handled as
floats in `video_processor.py` are modelled by the exact rational values of
the IEEE-754 binary64 doubles the source computes, with every rounding
operation made explicit (see the `fround` model below).
-/

namespace Reclipper

abbrev Str := List Char

/-- Python whitespace characters (`str.strip` / `\s`). -/
def isWs (c : Char) : Bool :=
  c = ' ' || c = '\t' || c = '\n' || c = '\r' || c = '\x0b' || c = '\x0c'

/-- Python `str.lstrip()`. -/
def pyLStrip (s : Str) : Str := s.dropWhile isWs

/-- Python `str.strip()`. -/
def pyStrip (s : Str) : Str := ((s.dropWhile isWs).reverse.dropWhile isWs).reverse

/-- Python `str.split(sep)` for a one-character separator. -/
def splitChar (sep : Char) : Str → List Str
  | [] => [[]]
  | c :: rest =>
    match splitChar sep rest with
    | [] => [[]]
    | h :: t => if c = sep then [] :: h :: t else (c :: h) :: t

/-- Python `re.split(r'\n\n', s)`: split on the exact two-newline separator,
leftmost non-overlapping occurrences. -/
def splitNN : Str → List Str
  | [] => [[]]
  | [c] => [[c]]
  | c :: d :: rest =>
    if c = '\n' && d = '\n' then [] :: splitNN rest
    else
      match splitNN (d :: rest) with
      | [] => [[]]
      | h :: t => (c :: h) :: t

/-- Python `'\n'.join(lines)`. -/
def joinNl : List Str → Str
  | [] => []
  | [x] => x
  | x :: y :: t => x ++ '\n' :: joinNl (y :: t)

/-- Python `str.splitlines()` for content whose only line terminator is `'\n'`:
split on newlines, with no empty final piece for a trailing newline. -/
def pySplitlines (s : Str) : List Str :=
  let parts := splitChar '\n' s
  if parts.getLast? = some [] then parts.dropLast else parts

/-- The decimal digit character for `d ≤ 9` (as produced by Python `str(int)`). -/
def digitChar : Nat → Char
  | 0 => '0' | 1 => '1' | 2 => '2' | 3 => '3' | 4 => '4'
  | 5 => '5' | 6 => '6' | 7 => '7' | 8 => '8' | _ => '9'

/-- Numeric value of a digit character (as used when parsing matched `\d` groups). -/
def digitVal (c : Char) : Int := (c.toNat : Int) - 48

/-- Decimal digits of `n`, with structural fuel (any fuel above `n` suffices). -/
def natToDigitsAux : Nat → Nat → Str
  | 0, _ => []
  | fuel + 1, n =>
    if n < 10 then [digitChar n]
    else natToDigitsAux fuel (n / 10) ++ [digitChar (n % 10)]

/-- Python `str(n)` for a natural number: decimal digits, no padding. -/
def natToDigits (n : Nat) : Str := natToDigitsAux (n + 1) n

/-- Python `f"{n:0wd}"` for a nonnegative value: zero-pad to width `w`. -/
def padNat (w : Nat) (n : Nat) : Str :=
  let ds := natToDigits n
  List.replicate (w - ds.length) '0' ++ ds

/-- Python `f"{n:0wd}"` for a possibly negative integer: the sign is followed by
the digits zero-padded to total width `w`. -/
def padInt (w : Nat) (n : Int) : Str :=
  if n < 0 then '-' :: padNat (w - 1) n.natAbs else padNat w n.toNat

/-! ## `subtitle_translator.py` -/

/-- A subtitle cue as held by `SubtitleTranslator`: the two times are kept as
the raw `HH:MM:SS,mmm` strings, the text as a string. -/
structure Cue where
  start_time : Str
  end_time : Str
  text : Str
deriving DecidableEq, Repr

/-- Does `t` match `\d{2}:\d{2}:\d{2},\d{3}` exactly (a 12-character timestamp)? -/
def timeRe12 (t : Str) : Bool :=
  match t with
  | [h1, h2, c1, m1, m2, c2, s1, s2, c3, q1, q2, q3] =>
    h1.isDigit && h2.isDigit && c1 = ':' && m1.isDigit && m2.isDigit && c2 = ':' &&
    s1.isDigit && s2.isDigit && c3 = ',' && q1.isDigit && q2.isDigit && q3.isDigit
  | _ => false

/-- The literal `" --> "` separator. -/
def arrowStr : Str := [' ', '-', '-', '>', ' ']

/-- `re.match(r'(\d{2}:\d{2}:\d{2},\d{3}) --> (\d{2}:\d{2}:\d{2},\d{3})', l)`:
a prefix match with the literal one-space arrow, returning the two groups. -/
def matchSrtTime (l : Str) : Option (Str × Str) :=
  let t1 := l.take 12
  let r := l.drop 12
  let t2 := (r.drop 5).take 12
  if timeRe12 t1 && decide (r.take 5 = arrowStr) && timeRe12 t2 then some (t1, t2) else none

/-- Python `' '.join(lines)`. -/
def joinSpace (l : List Str) : Str := (l.intersperse [' ']).flatten

/-- One iteration of the block loop of `_parse_srt_content`: strip the block,
split into lines, require at least 3 lines and a matching time line. -/
def parseSrtBlock (block : Str) : Option Cue :=
  let lines := splitChar '\n' (pyStrip block)
  if lines.length ≥ 3 then
    match matchSrtTime (lines.getD 1 []) with
    | some (s, e) => some ⟨s, e, pyStrip (joinSpace (lines.drop 2))⟩
    | none => none
  else none

/-- `_parse_srt_content`: split the stripped content on blank-line separators
and parse each block, silently skipping malformed ones. -/
def parse_srt_content (content : Str) : List Cue :=
  (splitNN (pyStrip content)).filterMap parseSrtBlock

/-- Does `t` match `\d{2}:\d{2}:\d{2}\.\d{3}` exactly (VTT timestamp)? -/
def vttTimeRe12 (t : Str) : Bool :=
  match t with
  | [h1, h2, c1, m1, m2, c2, s1, s2, c3, q1, q2, q3] =>
    h1.isDigit && h2.isDigit && c1 = ':' && m1.isDigit && m2.isDigit && c2 = ':' &&
    s1.isDigit && s2.isDigit && c3 = '.' && q1.isDigit && q2.isDigit && q3.isDigit
  | _ => false

/-- `re.match` of the VTT time-line pattern used by `_parse_vtt_content`. -/
def matchVttTime (l : Str) : Option (Str × Str) :=
  let t1 := l.take 12
  let r := l.drop 12
  let t2 := (r.drop 5).take 12
  if vttTimeRe12 t1 && decide (r.take 5 = arrowStr) && vttTimeRe12 t2 then some (t1, t2) else none

/-- Python `s.replace('.', ',')`. -/
def dotToComma (s : Str) : Str := s.map (fun c => if c = '.' then ',' else c)

/-- Does `l` start with the given word (Python `str.startswith`)? -/
def pyStartsWith (w : Str) (l : Str) : Bool := w.isPrefixOf l

/-- The line loop of `_parse_vtt_content`: a time line closes the previous cue
(unstripped text) and opens a new one; other non-blank lines are accumulated with
a trailing space while inside a cue; at the end the final cue's text is stripped. -/
def parseVttAux : List Str → Bool → Option Cue → List Cue
  | [], _, cur =>
    match cur with
    | none => []
    | some c => [{ c with text := pyStrip c.text }]
  | l :: rest, inCue, cur =>
    let line := pyStrip l
    if line = [] then parseVttAux rest inCue cur
    else
      match matchVttTime line with
      | some (s, e) =>
        (match cur with | some c => [c] | none => []) ++
          parseVttAux rest true (some ⟨dotToComma s, dotToComma e, []⟩)
      | none =>
        if inCue && !pyStartsWith "WEBVTT".data line && !pyStartsWith "NOTE".data line then
          match cur with
          | some c => parseVttAux rest inCue (some { c with text := c.text ++ line ++ [' '] })
          | none => parseVttAux rest inCue none
        else parseVttAux rest inCue cur

/-- `_parse_vtt_content`. -/
def parse_vtt_content (content : Str) : List Cue :=
  parseVttAux (splitChar '\n' content) false none

/-- `_read_subtitle_file`, given the file's name and content: dispatch on the
name's suffix; any other extension yields an empty cue list. -/
def read_subtitle_file (fileName content : Str) : List Cue :=
  if ".srt".data.isSuffixOf fileName then parse_srt_content content
  else if ".vtt".data.isSuffixOf fileName then parse_vtt_content content
  else []

/-- `_write_subtitle_file` body: blocks `i\nstart --> end\ntext\n\n`, 1-based. -/
def writeSrtAux : Nat → List Cue → Str
  | _, [] => []
  | i, c :: rest =>
    natToDigits i ++ '\n' :: (c.start_time ++ arrowStr ++ c.end_time) ++
      '\n' :: c.text ++ '\n' :: '\n' :: writeSrtAux (i + 1) rest

/-- The full content written by `_write_subtitle_file`. -/
def write_subtitle_file (subs : List Cue) : Str := writeSrtAux 1 subs

/-! ### The translation batcher -/

/-- One element of a decoded `translated_subtitles` array: either a JSON object
(with optional `translated` and `original` string fields) or a non-object value. -/
inductive Item where
  | obj (translated : Option Str) (original : Option Str)
  | nonDict
deriving DecidableEq, Repr

/-- A raw service response as seen by `_translate_batch`: either text that fails
`json.loads`, or a decoded document whose `translated_subtitles` field holds the
given items (`[]` when the field is absent). -/
inductive Resp where
  | invalid
  | decoded (items : List Item)
deriving DecidableEq, Repr

/-- The errors `_translate_batch` can raise after exhausting its retries. -/
inductive TbError where
  | lengthMismatch (expected actual : Nat)
  | jsonError
deriving DecidableEq, Repr

/-- The per-entry text resolution of `_translate_batch` (lines 209–217):
a present `translated` field is used as-is, else a present `original` field,
else the source cue's own text. -/
def resolveText (srcText : Str) : Item → Str
  | .obj (some t) _ => t
  | .obj none (some o) => o
  | .obj none none => srcText
  | .nonDict => srcText

/-- Reassembly of a validated batch (lines 207–223): source timing, resolved text. -/
def combineBatch (subs : List Cue) (items : List Item) : List Cue :=
  List.zipWith (fun sub it => ⟨sub.start_time, sub.end_time, resolveText sub.text it⟩) subs items

/-- The retry loop of `_translate_batch`. `calls` counts service calls already
issued; the response under inspection is `oracle (calls - 1)`; `budget` is the
number of retries still allowed, i.e. `max_retries - retry_count` (`3 - rc` in
the source): the source bumps `retry_count` and retries while it is at most 3,
which is exactly `budget > 0` here. Returns the outcome together with the total
number of service calls issued. -/
def tbLoop (subs : List Cue) (oracle : Nat → Resp) :
    Nat → Nat → Except TbError (List Cue) × Nat
  | calls, 0 =>
    match oracle (calls - 1) with
    | .decoded items =>
      if items.length = subs.length then (Except.ok (combineBatch subs items), calls)
      else (Except.error (.lengthMismatch subs.length items.length), calls)
    | .invalid => (Except.error .jsonError, calls)
  | calls, b + 1 =>
    match oracle (calls - 1) with
    | .decoded items =>
      if items.length = subs.length then (Except.ok (combineBatch subs items), calls)
      else tbLoop subs oracle (calls + 1) b
    | .invalid => tbLoop subs oracle (calls + 1) b

/-- `_translate_batch`: one initial service call, then the validation/retry loop
with `max_retries = 3`. -/
def translate_batch (subs : List Cue) (oracle : Nat → Resp) :
    Except TbError (List Cue) × Nat :=
  tbLoop subs oracle 1 3

/-- The batches `subtitles[i:i+20]` of `_translate_subtitles`, with structural
fuel (any fuel at least the list length gives the same value). -/
def chunk20F : Nat → List Cue → List (List Cue)
  | 0, _ => []
  | _, [] => []
  | fuel + 1, c :: rest => (c :: rest.take 19) :: chunk20F fuel (rest.drop 19)

/-- The batches `subtitles[i:i+20]` of `_translate_subtitles`. -/
def chunk20 (l : List Cue) : List (List Cue) := chunk20F l.length l

/-- Sequential translation of the batches; `oracles i` is the response stream
serving batch `i`. The first failing batch aborts the whole run; the call count
accumulates across batches. -/
def tsGo (oracles : Nat → Nat → Resp) :
    List (List Cue) → Nat → Nat → Except TbError (List Cue) × Nat
  | [], _, calls => (Except.ok [], calls)
  | b :: rest, i, calls =>
    match translate_batch b (oracles i) with
    | (Except.error e, c) => (Except.error e, calls + c)
    | (Except.ok out, c) =>
      match tsGo oracles rest (i + 1) (calls + c) with
      | (Except.ok outs, totc) => (Except.ok (out ++ outs), totc)
      | r => r

/-- `_translate_subtitles`. -/
def translate_subtitles (subs : List Cue) (oracles : Nat → Nat → Resp) :
    Except TbError (List Cue) × Nat :=
  tsGo oracles (chunk20 subs) 0 0

/-- The observable outcome of `translate_subtitle_file`: the contents of the
files it wrote, in order, and its result (the written content on success). -/
structure TransFileResult where
  writes : List Str
  result : Except TbError Str
deriving Repr

/-- `translate_subtitle_file`: read, translate, and only then write; a
translation error propagates before any write happens. -/
def translate_subtitle_file (fileName content : Str) (oracles : Nat → Nat → Resp) :
    TransFileResult :=
  let subs := read_subtitle_file fileName content
  match (translate_subtitles subs oracles).1 with
  | .error e => ⟨[], .error e⟩
  | .ok ts => ⟨[write_subtitle_file ts], .ok (write_subtitle_file ts)⟩

/-! ## `video_processor.py`

`_parse_time_srt` returns Python floats (IEEE-754 binary64 values), and
`_format_time_srt` / `_format_time_ass` format such floats. A float is
modelled by the exact rational value of the binary64 double, and every
source operation that rounds (a float literal, an addition, a subtraction,
a multiplication) goes through `fround`, correct rounding to 53 significant
bits with ties to even. Operations that are exact on the reachable values
(`fmod` against the positive constants 3600 and 60, float floor-division by
them, and the subtraction `s - whole` of the truncated integer part) are
modelled by the corresponding exact rational operation. -/

section FloatModel

set_option allowUnsafeReducibility true
/- Core marks rational arithmetic irreducible; default reducibility is
restored so that concrete instances evaluate by `decide`. -/
attribute [semireducible] Rat.add Rat.sub Rat.mul Rat.div Rat.neg Rat.inv

end FloatModel

/-- Fuel-based floor of the base-2 logarithm: any fuel at least `n` suffices. -/
def lgF : Nat → Nat → Nat
  | 0, _ => 0
  | f + 1, n => if n ≤ 1 then 0 else lgF f (n / 2) + 1

/-- `⌊log₂ n⌋` for `1 ≤ n`. -/
def natLg (n : Nat) : Nat := lgF n n

/-- The exponent of a positive rational: the unique `e` with `2 ^ e ≤ q < 2 ^ (e + 1)`. -/
def qlog2 (q : ℚ) : Int :=
  let e0 : Int := (natLg q.num.natAbs : Int) - (natLg q.den : Int)
  if q < (2 : ℚ) ^ e0 then e0 - 1 else e0

/-- Round to the nearest integer, ties to even (the rounding of IEEE-754 and
of Python's `round`). -/
def roundNEQ (q : ℚ) : Int :=
  let f := ⌊q⌋
  if q - f < 1/2 then f
  else if (1 : ℚ)/2 < q - f then f + 1
  else if f % 2 = 0 then f else f + 1

/-- Round a positive rational to 53 significant bits, ties to even. -/
def froundPos (q : ℚ) : ℚ :=
  let e : Int := qlog2 q - 52
  (roundNEQ (q / 2 ^ e) : ℚ) * 2 ^ e

/-- The binary64 double nearest to `q` (ties to even): the exact result of an
IEEE operation or of a decimal-literal conversion whose exact value is `q`.
All values reached here are far from the overflow and subnormal ranges. -/
def fround (q : ℚ) : ℚ :=
  if q = 0 then 0 else if q < 0 then -froundPos (-q) else froundPos q

/-- The binary64 value of the literal `0.02`, the `epsilon` parameter of
`_deoverlap_srt`. -/
def eps02 : ℚ := fround (2 / 100)

/-- The binary64 value of `float("SS.mmm")` (a correctly rounded decimal
conversion). -/
def secVal (s ms : Nat) : ℚ := fround ((s : ℚ) + (ms : ℚ) / 1000)

/-- `_parse_time_srt` on fields `h:m:s,ms`: the int arithmetic
`hours * 3600 + minutes * 60` is exact, and adding the float seconds rounds
once. -/
def timeVal (h m s ms : Nat) : ℚ :=
  fround (((h * 3600 + m * 60 : Nat) : ℚ) + secVal s ms)

/-- Truncation toward zero (Python `int(x)` on a float). -/
def qtrunc (q : ℚ) : Int := q.num / (q.den : Int)

/-- C `fmod(x, y)`: `x - y * trunc(x / y)`. On doubles `fmod` is always
exact, so no rounding step appears. -/
def fmodQ (x y : ℚ) : ℚ := x - y * (qtrunc (x / y) : ℚ)

/-- Python float `x % y` (`float_divmod`): the exact `fmod`, then `mod += y`
(one rounded float addition) when the nonzero remainder's sign differs from
`y`, and `copysign(0, y)` for a zero remainder. -/
def pyMod (x y : ℚ) : ℚ :=
  let m := fmodQ x y
  if m = 0 then 0
  else if (y < 0) = (m < 0) then m else fround (m + y)

/-- Python `int(x // y)` for the divisors 3600 and 60 used here: on the
reachable doubles `(x - fmod(x, y)) / y` is computed exactly (the difference
is the exact integer multiple `y * trunc(x / y)` and the division by `y` is
exact), so with the sign adjustment the result is the mathematical floor. -/
def pyFloorDiv (x y : ℚ) : Int := ⌊x / y⌋

/-- Numeric value of a digit character, as a natural number. -/
def digitValN (c : Char) : Nat := c.toNat - 48

/-- `_parse_time_srt` on a string matched by the 12-character timestamp
pattern (the only shape the deoverlap regex groups can take). -/
def parse_time_srt (t : Str) : ℚ :=
  match t with
  | [h1, h2, _, m1, m2, _, s1, s2, _, q1, q2, q3] =>
    timeVal (digitValN h1 * 10 + digitValN h2) (digitValN m1 * 10 + digitValN m2)
      (digitValN s1 * 10 + digitValN s2)
      (digitValN q1 * 100 + digitValN q2 * 10 + digitValN q3)
  | _ => 0

/-- `_format_time_srt` on a float: `hours`/`minutes` by float floor-division
and modulo, `whole = int(s)`, and `ms = int(round((s - whole) * 1000))` where
the subtraction is exact (`whole` is the truncation of `0 ≤ s < 64`), the
multiplication rounds, and `round` is ties-to-even. There is no carry: `ms`
can round to `1000` and is then printed as a four-digit field. -/
def format_time_srt (x : ℚ) : Str :=
  let hours := pyFloorDiv x 3600
  let minutes := pyFloorDiv (pyMod x 3600) 60
  let s := pyMod x 60
  let whole := qtrunc s
  let ms := roundNEQ (fround ((s - (whole : ℚ)) * 1000))
  padInt 2 hours ++ ':' :: padInt 2 minutes ++ ':' :: padInt 2 whole ++ ',' :: padInt 3 ms

/-- The time line written on line 206: `f"{format(start)} --> {format(end)}"`. -/
def ftLine (s e : ℚ) : Str := format_time_srt s ++ arrowStr ++ format_time_srt e

/-- `re.match(r"^(\d{2}:\d{2}:\d{2},\d{3})\s*-->\s*(\d{2}:\d{2}:\d{2},\d{3})", l)`
of `_deoverlap_srt`: prefix match with flexible whitespace around the arrow. -/
def matchDeoTime (l : Str) : Option (Str × Str) :=
  let t1 := l.take 12
  if timeRe12 t1 then
    let r1 := (l.drop 12).dropWhile isWs
    if r1.take 3 = ['-', '-', '>'] then
      let r2 := (r1.drop 3).dropWhile isWs
      let t2 := r2.take 12
      if timeRe12 t2 then some (t1, t2) else none
    else none
  else none

/-- `re.match(r"^\d+$", line)`. -/
def isIndexLine (l : Str) : Bool := !l.isEmpty && l.all Char.isDigit

/-- The loop state of `_deoverlap_srt`: the output lines, `prev_end`
(`none` for Python's `None`), and `prev_time_line_index`
(`none` for Python's `-1`). -/
structure DeoState where
  out : List Str
  prevEnd : Option ℚ
  prevIdx : Option Nat

/-- The shrink step (lines 190–204): when the current start lies before the
previous end, recompute the previous cue's end as the float
`start - epsilon`, re-match the previous time line in the output, and rewrite
its end. The comparison on line 195 is against the parse of the *current*
start group, so it can fire only if `start - epsilon` rounds above `start`
(it never does), and its reassignment on line 196 recomputes the same value. -/
def deoShrink (out : List Str) (prevIdx : Option Nat) (prevEnd : Option ℚ)
    (start : ℚ) : List Str × Option ℚ :=
  match prevEnd, prevIdx with
  | some pe, some k =>
    if start < pe then
      let npe0 := fround (start - eps02)
      let npe := if npe0 > start then fround (start - eps02) else npe0
      match matchDeoTime (out.getD k []) with
      | some (g1, _) => (out.set k (g1 ++ arrowStr ++ format_time_srt npe), some npe)
      | none => (out, some pe)
    else (out, some pe)
  | pe, _ => (out, pe)

/-- Where the loop of `_deoverlap_srt` stands relative to the current line:
about to read any line (`normal`), about to read the line after a bare index
line (`afterIndex`), or inside the text-copying inner loop (`copying`). -/
inductive DeoMode where
  | normal
  | afterIndex
  | copying
deriving DecidableEq, Repr

/-- The loop of `_deoverlap_srt`, processing one input line per step.

The Python loop reads the time line in the same iteration as its index line
and runs an inner loop over the text lines; this is flattened here into the
`DeoMode` component. `prev_end` is read only when a time line is parsed and
`prev_time_line_index` only in the shrink step, so setting both at the time
line (instead of after the inner loop) is the identical behaviour. At end of
input the pending `""` of the inner loop is still appended (line 212); a
blank line ending the inner loop is first accounted for by that appended `""`
and then copied verbatim by the outer loop, which is why the output carries a
doubled blank line after each block. -/
def deoGo : List Str → DeoMode → DeoState → List Str
  | [], mode, st => if mode = .copying then st.out ++ [[]] else st.out
  | l :: rest, mode, st =>
    match mode with
    | .normal =>
      if isIndexLine (pyStrip l) then
        deoGo rest .afterIndex ⟨st.out ++ [l], st.prevEnd, st.prevIdx⟩
      else deoGo rest .normal ⟨st.out ++ [l], st.prevEnd, st.prevIdx⟩
    | .afterIndex =>
      match matchDeoTime (pyStrip l) with
      | none => deoGo rest .normal ⟨st.out ++ [l], st.prevEnd, st.prevIdx⟩
      | some (g1, g2) =>
        let start := parse_time_srt g1
        let e := parse_time_srt g2
        let out2 := (deoShrink st.out st.prevIdx st.prevEnd start).1
        let out3 := out2 ++ [ftLine start e]
        deoGo rest .copying ⟨out3, some e, some (out3.length - 1)⟩
    | .copying =>
      if pyStrip l = [] then
        deoGo rest .normal ⟨st.out ++ [[], l], st.prevEnd, st.prevIdx⟩
      else deoGo rest .copying ⟨st.out ++ [l], st.prevEnd, st.prevIdx⟩

/-- `_deoverlap_srt` on the list of input lines. -/
def deoverlapLines (content : List Str) : List Str :=
  deoGo content .normal ⟨[], none, none⟩

/-- `_deoverlap_srt` at the file level: `read_text().splitlines()`, process,
`"\n".join(...)` written back. -/
def deoverlap_srt (s : Str) : Str := joinNl (deoverlapLines (pySplitlines s))

/-! ### Canonical timestamps -/

/-- The four numeric fields of a well-formed SRT timestamp `HH:MM:SS,mmm`. -/
structure TS where
  h : Nat
  m : Nat
  s : Nat
  ms : Nat
deriving DecidableEq, Repr

/-- Render the fields as the canonical 12-character timestamp. -/
def tsStr (t : TS) : Str :=
  padNat 2 t.h ++ ':' :: padNat 2 t.m ++ ':' :: padNat 2 t.s ++ ',' :: padNat 3 t.ms

/-- A canonical `start --> end` SRT time line. -/
def tsLine (a b : TS) : Str := tsStr a ++ arrowStr ++ tsStr b

/-- The float `_parse_time_srt` computes for the rendered timestamp. -/
def tsVal (t : TS) : ℚ := timeVal t.h t.m t.s t.ms

/-- Field bounds under which `tsStr` is a 12-character digit-shaped timestamp. -/
def tsOk (t : TS) : Prop := t.h < 100 ∧ t.m < 100 ∧ t.s < 100 ∧ t.ms < 1000

/-! ### The bilingual composer, `create_bilingual_subtitle_file` -/

/-- A cue as read back by `_read_subtitle_file` for the composer: float
times in seconds, text. -/
structure FCue where
  start_time : ℚ
  end_time : ℚ
  text : Str
deriving DecidableEq, Repr

/-- Python `f"{secs:05.2f}"`: the correctly rounded two-decimal rendering of
the exact binary value, ties to even, zero-padded to a total width of 5. -/
def fmt052 (secs : ℚ) : Str :=
  let c := roundNEQ (secs * 100)
  if c < 0 then '-' :: natToDigits (c.natAbs / 100) ++ '.' :: padNat 2 (c.natAbs % 100)
  else padNat 2 (c.toNat / 100) ++ '.' :: padNat 2 (c.toNat % 100)

/-- `_format_time_ass` on a float: `f"{hours}:{minutes:02d}:{secs:05.2f}"`
with the same float floor-division and modulo as `_format_time_srt`, and no
carry out of the seconds field. -/
def format_time_ass (x : ℚ) : Str :=
  let hours := pyFloorDiv x 3600
  let minutes := pyFloorDiv (pyMod x 3600) 60
  padInt 1 hours ++ ':' :: padInt 2 minutes ++ ':' :: fmt052 (pyMod x 60)

/-- The `{\fs28}` style tag put before the primary (Chinese) text. -/
def chiStyle : Str := "\x7b\\fs28\x7d".data

/-- The `{\fs20\c&H00FFFF&}` style tag put before the secondary (English) text. -/
def engStyle : Str := "\x7b\\fs20\\c&H00FFFF&\x7d".data

/-- The constant pieces of a dialogue line. -/
def dialogueHead (c : FCue) : Str :=
  "Dialogue: 0,".data ++ format_time_ass c.start_time ++ ',' :: format_time_ass c.end_time ++
    ",Default,,0,0,0,,".data

/-- The secondary-text lookup (lines 346–351): the first secondary cue whose
float start and end each differ from the primary cue's by strictly less than
`0.5` (the subtraction rounds once; `0.5` is an exact double). -/
def findEnglish (engs : List FCue) (c : FCue) : Option FCue :=
  engs.find? (fun e =>
    decide (|fround (e.start_time - c.start_time)| < (1 : ℚ)/2) &&
    decide (|fround (e.end_time - c.end_time)| < (1 : ℚ)/2))

/-- One dialogue line (lines 353–364): a non-empty secondary text produces a
two-segment line joined by `\N`; otherwise a single-segment line. -/
def bilingualLine (c : FCue) (engText : Str) : Str :=
  if engText ≠ [] then
    dialogueHead c ++ chiStyle ++ c.text ++ "\\N".data ++ engStyle ++ engText
  else
    dialogueHead c ++ chiStyle ++ c.text

/-- The dialogue lines emitted by `create_bilingual_subtitle_file` for the
given primary (Chinese) and secondary (English) cue lists. -/
def create_bilingual_lines (chs engs : List FCue) : List Str :=
  chs.map (fun c => bilingualLine c (((findEnglish engs c).map FCue.text).getD []))

/-! ## Basic lemmas about digits, padding, and time formatting -/

theorem digitChar_isDigit (d : Nat) : (digitChar d).isDigit = true := by
  unfold digitChar
  split <;> decide

theorem digitChar_ne_nl (d : Nat) : digitChar d ≠ '\n' := by
  unfold digitChar
  split <;> decide

theorem isDigit_not_isWs {c : Char} (h : c.isDigit = true) : isWs c = false := by
  by_contra hw
  simp only [Bool.not_eq_false] at hw
  simp only [isWs, Bool.or_eq_true, decide_eq_true_eq] at hw
  simp only [Char.isDigit, Bool.and_eq_true, decide_eq_true_eq] at h
  rcases hw with ((((h1 | h1) | h1) | h1) | h1) | h1 <;> subst h1 <;>
    exact absurd h.1 (by decide)

theorem natToDigitsAux_ne_nil (fuel n : Nat) : natToDigitsAux (fuel + 1) n ≠ [] := by
  unfold natToDigitsAux
  split <;> simp

theorem natToDigits_ne_nil (n : Nat) : natToDigits n ≠ [] := natToDigitsAux_ne_nil n n

theorem natToDigitsAux_all_digit (fuel n : Nat) :
    ∀ c ∈ natToDigitsAux fuel n, c.isDigit = true := by
  induction fuel generalizing n with
  | zero => simp [natToDigitsAux]
  | succ fuel ih =>
    unfold natToDigitsAux
    split
    · intro c hc
      simp at hc
      subst hc
      exact digitChar_isDigit n
    · intro c hc
      simp at hc
      rcases hc with hc | hc
      · exact ih (n / 10) c hc
      · subst hc
        exact digitChar_isDigit (n % 10)

theorem natToDigits_all_digit (n : Nat) : ∀ c ∈ natToDigits n, c.isDigit = true :=
  natToDigitsAux_all_digit (n + 1) n

theorem natToDigits_lt_10 (n : Nat) (h : n < 10) : natToDigits n = [digitChar n] := by
  unfold natToDigits natToDigitsAux
  simp [h]

theorem natToDigits_lt_100 (n : Nat) (h1 : 10 ≤ n) (h2 : n < 100) :
    natToDigits n = [digitChar (n / 10), digitChar (n % 10)] := by
  obtain ⟨m, rfl⟩ : ∃ m, n = m + 1 := ⟨n - 1, by omega⟩
  unfold natToDigits natToDigitsAux
  rw [if_neg (by omega)]
  unfold natToDigitsAux
  rw [if_pos (by omega)]
  rfl

theorem natToDigits_lt_1000 (n : Nat) (h1 : 100 ≤ n) (h2 : n < 1000) :
    natToDigits n = [digitChar (n / 100), digitChar (n / 10 % 10), digitChar (n % 10)] := by
  obtain ⟨m, rfl⟩ : ∃ m, n = m + 1 := ⟨n - 1, by omega⟩
  unfold natToDigits natToDigitsAux
  rw [if_neg (by omega)]
  unfold natToDigitsAux
  rw [if_neg (by omega)]
  obtain ⟨p, hp⟩ : ∃ p, m = p + 1 := ⟨m - 1, by omega⟩
  rw [hp]
  unfold natToDigitsAux
  rw [if_pos (by omega)]
  have : (p + 1 + 1) / 10 / 10 = (p + 1 + 1) / 100 := by omega
  simp [this]

theorem pad2_eq (n : Nat) (h : n < 100) :
    padNat 2 n = [digitChar (n / 10), digitChar (n % 10)] := by
  unfold padNat
  by_cases h10 : n < 10
  · rw [natToDigits_lt_10 n h10]
    have hq : n / 10 = 0 := by omega
    have hr : n % 10 = n := by omega
    simp [hq, hr, digitChar, List.replicate]
  · rw [natToDigits_lt_100 n (by omega) h]
    simp

theorem pad3_eq (n : Nat) (h : n < 1000) :
    padNat 3 n = [digitChar (n / 100), digitChar (n / 10 % 10), digitChar (n % 10)] := by
  unfold padNat
  by_cases h10 : n < 10
  · rw [natToDigits_lt_10 n h10]
    have hq : n / 100 = 0 := by omega
    have hq2 : n / 10 % 10 = 0 := by omega
    have hr : n % 10 = n := by omega
    simp [hq, hq2, hr, digitChar, List.replicate]
  · by_cases h100 : n < 100
    · rw [natToDigits_lt_100 n (by omega) h100]
      have hq : n / 100 = 0 := by omega
      have hq2 : n / 10 % 10 = n / 10 := by omega
      simp [hq, hq2, digitChar, List.replicate]
    · rw [natToDigits_lt_1000 n (by omega) h]
      simp

theorem digitVal_digitChar (d : Nat) (h : d < 10) : digitVal (digitChar d) = (d : Int) := by
  interval_cases d <;> decide

theorem digitValN_digitChar (d : Nat) (h : d < 10) : digitValN (digitChar d) = d := by
  interval_cases d <;> decide

/-! ## The binary64 rounding model: basic bounds -/

theorem lgF_spec : ∀ (f n : Nat), 1 ≤ n → n ≤ f → 2 ^ lgF f n ≤ n ∧ n < 2 ^ (lgF f n + 1)
  | 0, _, h1, h2 => absurd (le_trans h1 h2) (by omega)
  | f + 1, n, h1, h2 => by
    unfold lgF
    by_cases hn : n ≤ 1
    · have he : n = 1 := by omega
      subst he
      simp
    · rw [if_neg hn]
      have h1' : 1 ≤ n / 2 := by omega
      have h2' : n / 2 ≤ f := by omega
      obtain ⟨ha, hb⟩ := lgF_spec f (n / 2) h1' h2'
      have hpow1 : 2 ^ (lgF f (n / 2) + 1) = 2 * 2 ^ lgF f (n / 2) := by
        rw [pow_succ]
        ring
      have hpow2 : 2 ^ (lgF f (n / 2) + 1 + 1) = 4 * 2 ^ lgF f (n / 2) := by
        rw [pow_succ, pow_succ]
        ring
      rw [hpow1] at hb ⊢
      rw [hpow2]
      omega

theorem natLg_spec (n : Nat) (h : 1 ≤ n) : 2 ^ natLg n ≤ n ∧ n < 2 ^ (natLg n + 1) :=
  lgF_spec n n h le_rfl

theorem qlog2_spec (q : ℚ) (hq : 0 < q) :
    (2 : ℚ) ^ qlog2 q ≤ q ∧ q < 2 ^ (qlog2 q + 1) := by
  have hqden : q * (q.den : ℚ) = (q.num : ℚ) := Rat.mul_den_eq_num q
  have hnum : 0 < q.num := Rat.num_pos.mpr hq
  have hna : 1 ≤ q.num.natAbs := by omega
  have hdb : 1 ≤ q.den := q.pos
  obtain ⟨hA1, hA2⟩ := natLg_spec q.num.natAbs hna
  obtain ⟨hB1, hB2⟩ := natLg_spec q.den hdb
  have hnumcast : ((q.num.natAbs : ℚ)) = (q.num : ℚ) := by
    have h := Int.natAbs_of_nonneg hnum.le
    calc ((q.num.natAbs : ℚ)) = (((q.num.natAbs : ℤ) : ℚ)) := (Int.cast_natCast _).symm
      _ = (q.num : ℚ) := by rw [h]
  have hA1' : (2 : ℚ) ^ natLg q.num.natAbs ≤ (q.num : ℚ) := by
    rw [← hnumcast]
    exact_mod_cast hA1
  have hA2' : (q.num : ℚ) < 2 ^ (natLg q.num.natAbs + 1) := by
    rw [← hnumcast]
    exact_mod_cast hA2
  have hB1' : (2 : ℚ) ^ natLg q.den ≤ (q.den : ℚ) := by exact_mod_cast hB1
  have hB2' : ((q.den : ℚ)) < 2 ^ (natLg q.den + 1) := by exact_mod_cast hB2
  set a := natLg q.num.natAbs with hadef
  set b := natLg q.den with hbdef
  have hub : q < 2 ^ ((a : ℤ) - (b : ℤ) + 1) := by
    have he : ((a : ℤ) - (b : ℤ) + 1) = ((a + 1 : ℕ) : ℤ) - ((b : ℕ) : ℤ) := by push_cast; ring
    rw [he, zpow_sub₀ (two_ne_zero), zpow_natCast, zpow_natCast]
    rw [lt_div_iff (by positivity)]
    calc q * 2 ^ b ≤ q * (q.den : ℚ) := by
          exact mul_le_mul_of_nonneg_left hB1' hq.le
      _ = (q.num : ℚ) := hqden
      _ < 2 ^ (a + 1) := hA2'
  have hlb : (2 : ℚ) ^ ((a : ℤ) - (b : ℤ) - 1) < q := by
    have he : ((a : ℤ) - (b : ℤ) - 1) = ((a : ℕ) : ℤ) - ((b + 1 : ℕ) : ℤ) := by push_cast; ring
    rw [he, zpow_sub₀ (two_ne_zero), zpow_natCast, zpow_natCast]
    rw [div_lt_iff (by positivity)]
    calc (2 : ℚ) ^ a ≤ (q.num : ℚ) := hA1'
      _ = q * (q.den : ℚ) := hqden.symm
      _ < q * 2 ^ (b + 1) := by exact mul_lt_mul_of_pos_left hB2' hq
  unfold qlog2
  rw [← hadef, ← hbdef]
  by_cases hcase : q < (2 : ℚ) ^ ((a : ℤ) - (b : ℤ))
  · rw [if_pos hcase]
    refine ⟨hlb.le, ?_⟩
    rw [show (a : ℤ) - (b : ℤ) - 1 + 1 = (a : ℤ) - (b : ℤ) by ring]
    exact hcase
  · rw [if_neg hcase]
    exact ⟨le_of_not_lt hcase, hub⟩

theorem roundNEQ_err (q : ℚ) : |(roundNEQ q : ℚ) - q| ≤ 1 / 2 := by
  have hf1 : ((⌊q⌋ : ℚ)) ≤ q := Int.floor_le q
  have hf2 : q < ⌊q⌋ + 1 := Int.lt_floor_add_one q
  simp only [roundNEQ]
  split_ifs with h1 h2 h3 <;> rw [abs_le] <;> constructor <;> push_cast <;> linarith

theorem froundPos_err (q : ℚ) (hq : 0 < q) : |froundPos q - q| ≤ q / 2 ^ 53 := by
  obtain ⟨hlo, _⟩ := qlog2_spec q hq
  have h2e : (0 : ℚ) < 2 ^ (qlog2 q - 52) := zpow_pos (by norm_num) _
  have herr := roundNEQ_err (q / 2 ^ (qlog2 q - 52))
  unfold froundPos
  calc |(roundNEQ (q / 2 ^ (qlog2 q - 52)) : ℚ) * 2 ^ (qlog2 q - 52) - q|
      = |((roundNEQ (q / 2 ^ (qlog2 q - 52)) : ℚ) - q / 2 ^ (qlog2 q - 52)) *
          2 ^ (qlog2 q - 52)| := by
        rw [sub_mul, div_mul_cancel₀ _ (ne_of_gt h2e)]
    _ = |(roundNEQ (q / 2 ^ (qlog2 q - 52)) : ℚ) - q / 2 ^ (qlog2 q - 52)| *
          2 ^ (qlog2 q - 52) := by
        rw [abs_mul, abs_of_pos h2e]
    _ ≤ (1 / 2) * 2 ^ (qlog2 q - 52) := mul_le_mul_of_nonneg_right herr h2e.le
    _ ≤ q / 2 ^ 53 := by
        have h1 : (1 : ℚ) / 2 = 2 ^ (-1 : ℤ) := by norm_num
        rw [h1, ← zpow_add₀ (two_ne_zero),
          show (-1 + (qlog2 q - 52)) = qlog2 q - 53 from by ring,
          zpow_sub₀ (two_ne_zero),
          show ((2 : ℚ) ^ (53 : ℤ)) = 2 ^ (53 : ℕ) from by norm_num]
        gcongr

theorem fround_err (q : ℚ) : |fround q - q| ≤ |q| / 2 ^ 53 := by
  unfold fround
  split_ifs with h0 hneg
  · simp [h0]
  · have hpos : 0 < -q := by linarith
    have herr := froundPos_err (-q) hpos
    have habs : |-froundPos (-q) - q| = |froundPos (-q) - -q| := by
      rw [show -froundPos (-q) - q = -(froundPos (-q) - -q) by ring, abs_neg]
    rw [habs, abs_of_neg (by linarith : q < 0)]
    exact herr
  · have hpos : 0 < q := lt_of_le_of_ne (le_of_not_lt hneg) (Ne.symm h0)
    rw [abs_of_pos hpos]
    exact froundPos_err q hpos

theorem fround_nonneg (q : ℚ) (h : 0 ≤ q) : 0 ≤ fround q := by
  rcases h.eq_or_lt with he | hpos
  · rw [← he]
    simp [fround]
  · have herr := fround_err q
    rw [abs_of_pos hpos, abs_le] at herr
    have hd : q / 2 ^ 53 ≤ q := by
      apply div_le_self hpos.le
      norm_num
    linarith [herr.1]

theorem eps02_bounds : 1 / 51 ≤ eps02 ∧ eps02 ≤ 1 / 49 := by
  have herr := fround_err (2 / 100)
  rw [abs_le] at herr
  have habs : |(2 : ℚ) / 100| = 2 / 100 := by norm_num
  rw [habs] at herr
  have hsmall : (2 : ℚ) / 100 / 2 ^ 53 ≤ 1 / 1000 := by norm_num
  unfold eps02
  constructor <;> linarith [herr.1, herr.2]

theorem fround_sub_eps_le (x : ℚ) (hx : |x| ≤ 2 ^ 20) : fround (x - eps02) ≤ x := by
  obtain ⟨he1, he2⟩ := eps02_bounds
  have htri : |x - eps02| ≤ |x| + |eps02| := by
    rw [sub_eq_add_neg]
    exact (abs_add x (-eps02)).trans_eq (by rw [abs_neg])
  have habse : |eps02| = eps02 := abs_of_pos (by linarith)
  have herr := fround_err (x - eps02)
  rw [abs_le] at herr
  have hy : |x - eps02| ≤ 2 ^ 20 + 1 := by
    rw [habse] at htri
    linarith
  have hb : |x - eps02| / 2 ^ 53 ≤ ((2 : ℚ) ^ 20 + 1) / 2 ^ 53 :=
    (div_le_div_right (by positivity)).mpr hy
  have hc : ((2 : ℚ) ^ 20 + 1) / 2 ^ 53 ≤ 1 / 51 := by norm_num
  linarith [herr.2]

theorem tsVal_nonneg_le (t : TS) (h : tsOk t) : 0 ≤ tsVal t ∧ tsVal t ≤ 2 ^ 20 := by
  obtain ⟨hh, hm, hs, hms⟩ := h
  have harg1 : (0 : ℚ) ≤ (t.s : ℚ) + (t.ms : ℚ) / 1000 := by positivity
  have harg1u : (t.s : ℚ) + (t.ms : ℚ) / 1000 ≤ 100 := by
    have h1 : (t.s : ℚ) ≤ 99 := by exact_mod_cast (by omega : t.s ≤ 99)
    have h2 : (t.ms : ℚ) ≤ 999 := by exact_mod_cast (by omega : t.ms ≤ 999)
    have h3 : (t.ms : ℚ) / 1000 ≤ 1 := by
      rw [div_le_one (by norm_num)]
      linarith
    linarith
  have hsv0 : 0 ≤ secVal t.s t.ms := fround_nonneg _ harg1
  have hsverr := fround_err ((t.s : ℚ) + (t.ms : ℚ) / 1000)
  rw [abs_le, abs_of_nonneg harg1] at hsverr
  have hdiv1 : ((t.s : ℚ) + (t.ms : ℚ) / 1000) / 2 ^ 53 ≤ 1 := by
    rw [div_le_one (by positivity)]
    have : (100 : ℚ) ≤ 2 ^ 53 := by norm_num
    linarith
  have hsvu : secVal t.s t.ms ≤ 101 := by
    unfold secVal
    linarith [hsverr.2]
  have hI : ((t.h * 3600 + t.m * 60 : Nat) : ℚ) ≤ 362340 := by
    exact_mod_cast (by omega : t.h * 3600 + t.m * 60 ≤ 362340)
  have hI0 : (0 : ℚ) ≤ ((t.h * 3600 + t.m * 60 : Nat) : ℚ) := by positivity
  have harg20 : (0 : ℚ) ≤ ((t.h * 3600 + t.m * 60 : Nat) : ℚ) + secVal t.s t.ms := by
    linarith
  have harg2u : ((t.h * 3600 + t.m * 60 : Nat) : ℚ) + secVal t.s t.ms ≤ 362441 := by
    linarith
  have htverr := fround_err (((t.h * 3600 + t.m * 60 : Nat) : ℚ) + secVal t.s t.ms)
  rw [abs_le, abs_of_nonneg harg20] at htverr
  have hdiv2 : (((t.h * 3600 + t.m * 60 : Nat) : ℚ) + secVal t.s t.ms) / 2 ^ 53 ≤ 1 := by
    rw [div_le_one (by positivity)]
    have : (362441 : ℚ) ≤ 2 ^ 53 := by norm_num
    linarith
  constructor
  · exact fround_nonneg _ harg20
  · show fround (((t.h * 3600 + t.m * 60 : Nat) : ℚ) + secVal t.s t.ms) ≤ 2 ^ 20
    have : (362442 : ℚ) ≤ 2 ^ 20 := by norm_num
    linarith [htverr.2]

theorem tsVal_abs_le (t : TS) (h : tsOk t) : |tsVal t| ≤ 2 ^ 20 := by
  obtain ⟨h0, h1⟩ := tsVal_nonneg_le t h
  rw [abs_of_nonneg h0]
  exact h1


/-! ## String-level lemmas: `pyStrip`, `splitChar`, `joinNl`, `splitNN` -/

theorem dropWhile_eq_self_of_head {p : Char → Bool} :
    ∀ l : Str, (∀ c, l.head? = some c → p c = false) → l.dropWhile p = l
  | [], _ => rfl
  | a :: t, h => by
    have := h a rfl
    simp [List.dropWhile_cons, this]

theorem pyStrip_eq_self (l : Str)
    (hh : ∀ c, l.head? = some c → isWs c = false)
    (hl : ∀ c, l.getLast? = some c → isWs c = false) : pyStrip l = l := by
  unfold pyStrip
  rw [dropWhile_eq_self_of_head l hh]
  rw [dropWhile_eq_self_of_head l.reverse (fun c hc => hl c (by rwa [List.head?_reverse] at hc))]
  exact List.reverse_reverse l

theorem pyStrip_nil : pyStrip [] = [] := rfl

theorem splitChar_ne_nil (sep : Char) : ∀ l : Str, splitChar sep l ≠ []
  | [] => by simp [splitChar]
  | c :: rest => by
    unfold splitChar
    cases h : splitChar sep rest with
    | nil => simp
    | cons h1 t => by_cases hc : c = sep <;> simp [hc]

theorem splitChar_of_not_mem {sep : Char} : ∀ {l : Str}, sep ∉ l → splitChar sep l = [l]
  | [], _ => rfl
  | c :: rest, h => by
    have hc : c ≠ sep := fun hc => h (hc ▸ List.mem_cons_self c rest)
    have ht : sep ∉ rest := fun ht => h (List.mem_cons_of_mem c ht)
    simp only [splitChar, splitChar_of_not_mem ht, if_neg hc]

theorem splitChar_append {sep : Char} :
    ∀ {a : Str} (r : Str), sep ∉ a → splitChar sep (a ++ sep :: r) = a :: splitChar sep r
  | [], r, _ => by
    simp only [List.nil_append]
    cases h : splitChar sep r with
    | nil => exact absurd h (splitChar_ne_nil sep r)
    | cons h1 t => simp [splitChar, h]
  | c :: a, r, h => by
    have hc : c ≠ sep := fun hc => h (hc ▸ List.mem_cons_self c a)
    have ha : sep ∉ a := fun ha => h (List.mem_cons_of_mem c ha)
    have ih := splitChar_append r ha
    simp only [List.cons_append, splitChar, List.append_eq, ih, if_neg hc]

theorem joinNl_cons_cons (x y : Str) (t : List Str) :
    joinNl (x :: y :: t) = x ++ '\n' :: joinNl (y :: t) := rfl

theorem splitChar_joinNl :
    ∀ L : List Str, (∀ x ∈ L, ('\n' : Char) ∉ x) → L ≠ [] → splitChar '\n' (joinNl L) = L
  | [], _, h => absurd rfl h
  | [x], h, _ => by
    simpa [joinNl] using splitChar_of_not_mem (h x (by simp))
  | x :: y :: t, h, _ => by
    rw [joinNl_cons_cons, splitChar_append _ (h x (by simp)),
      splitChar_joinNl (y :: t) (fun z hz => h z (List.mem_cons_of_mem x hz)) (by simp)]

theorem pySplitlines_joinNl (L : List Str) (h : ∀ x ∈ L, ('\n' : Char) ∉ x) (hne : L ≠ []) :
    pySplitlines (joinNl L) = if L.getLast? = some [] then L.dropLast else L := by
  unfold pySplitlines
  rw [splitChar_joinNl L h hne]

/-- Does the string contain two adjacent newline characters? -/
def hasNN : Str → Bool
  | [] => false
  | [_] => false
  | a :: b :: rest => (a = '\n' && b = '\n') || hasNN (b :: rest)

theorem hasNN_append_of_not_mem {a : Str} (s : Str) (h : ('\n' : Char) ∉ a) :
    hasNN (a ++ s) = hasNN s := by
  induction a with
  | nil => rfl
  | cons c a ih =>
    have hc : c ≠ '\n' := fun hc => h (hc ▸ List.mem_cons_self c a)
    have ha : ('\n' : Char) ∉ a := fun ha => h (List.mem_cons_of_mem c ha)
    rcases a with _ | ⟨d, r⟩
    · rcases s with _ | ⟨b, t⟩
      · simp [hasNN]
      · simp [hasNN, hc]
    · have ih2 := ih ha
      simp only [List.cons_append] at ih2 ⊢
      simp only [hasNN, List.append_eq, ih2]
      simp [hc]

theorem splitNN_single : ∀ {x : Str}, hasNN x = false → splitNN x = [x]
  | [], _ => rfl
  | [c], _ => rfl
  | c :: d :: r, h => by
    simp only [hasNN, Bool.or_eq_false_iff, Bool.and_eq_false_iff,
      decide_eq_false_iff_not] at h
    have ht : splitNN (d :: r) = [d :: r] := splitNN_single h.2
    have hcd : (decide (c = '\n') && decide (d = '\n')) = false := by
      rcases h.1 with hc | hd
      · simp [hc]
      · simp [hd]
    simp only [splitNN, ht, hcd]
    simp

theorem splitNN_sep :
    ∀ {x : Str} (y : Str), hasNN x = false → x.getLast? ≠ some '\n' →
      splitNN (x ++ '\n' :: '\n' :: y) = x :: splitNN y
  | [], y, _, _ => by simp [splitNN]
  | [c], y, _, hl => by
    have hc : c ≠ '\n' := by simpa using hl
    have hcd : (decide (c = '\n') && decide ('\n' = '\n')) = false := by simp [hc]
    simp only [List.cons_append, List.nil_append, splitNN, hcd]
    simp [splitNN, hc]
  | c :: d :: r, y, h, hl => by
    simp only [hasNN, Bool.or_eq_false_iff, Bool.and_eq_false_iff,
      decide_eq_false_iff_not] at h
    have hl2 : (d :: r).getLast? ≠ some '\n' := by
      rwa [List.getLast?_cons_cons] at hl
    have ih := splitNN_sep (x := d :: r) y h.2 hl2
    have hcd : (decide (c = '\n') && decide (d = '\n')) = false := by
      rcases h.1 with hc | hd
      · simp [hc]
      · simp [hd]
    simp only [List.cons_append] at ih ⊢
    simp only [splitNN, List.append_eq, ih, hcd]
    simp

/-! ## Lemmas about the canonical time line -/

theorem isWs_digitChar (d : Nat) : isWs (digitChar d) = false :=
  isDigit_not_isWs (digitChar_isDigit d)

theorem tsStr_eq (t : TS) (h : tsOk t) :
    tsStr t = [digitChar (t.h / 10), digitChar (t.h % 10), ':',
               digitChar (t.m / 10), digitChar (t.m % 10), ':',
               digitChar (t.s / 10), digitChar (t.s % 10), ',',
               digitChar (t.ms / 100), digitChar (t.ms / 10 % 10), digitChar (t.ms % 10)] := by
  obtain ⟨hh, hm, hs, hms⟩ := h
  unfold tsStr
  rw [pad2_eq _ hh, pad2_eq _ hm, pad2_eq _ hs, pad3_eq _ hms]
  simp

theorem tsStr_length (t : TS) (h : tsOk t) : (tsStr t).length = 12 := by
  rw [tsStr_eq t h]
  rfl

theorem timeRe12_tsStr (t : TS) (h : tsOk t) : timeRe12 (tsStr t) = true := by
  rw [tsStr_eq t h]
  simp [timeRe12, digitChar_isDigit]

theorem parse_tsStr (t : TS) (h : tsOk t) : parse_time_srt (tsStr t) = tsVal t := by
  rw [tsStr_eq t h]
  obtain ⟨hh, hm, hs, hms⟩ := h
  simp only [parse_time_srt]
  rw [digitValN_digitChar _ (by omega), digitValN_digitChar _ (by omega),
      digitValN_digitChar _ (by omega), digitValN_digitChar _ (by omega),
      digitValN_digitChar _ (by omega), digitValN_digitChar _ (by omega),
      digitValN_digitChar _ (by omega), digitValN_digitChar _ (by omega),
      digitValN_digitChar _ (by omega)]
  unfold tsVal
  rw [show t.h / 10 * 10 + t.h % 10 = t.h from by omega,
      show t.m / 10 * 10 + t.m % 10 = t.m from by omega,
      show t.s / 10 * 10 + t.s % 10 = t.s from by omega,
      show t.ms / 100 * 100 + t.ms / 10 % 10 * 10 + t.ms % 10 = t.ms from by omega]

theorem tsStr_ne_nil (t : TS) (h : tsOk t) : tsStr t ≠ [] := by
  rw [tsStr_eq t h]
  simp

theorem tsStr_head (t : TS) (h : tsOk t) :
    ∀ c, (tsStr t).head? = some c → isWs c = false := by
  rw [tsStr_eq t h]
  intro c hc
  simp at hc
  rw [← hc]
  exact isWs_digitChar _

theorem tsStr_getLast (t : TS) (h : tsOk t) :
    ∀ c, (tsStr t).getLast? = some c → isWs c = false := by
  rw [tsStr_eq t h]
  intro c hc
  simp [List.getLast?] at hc
  rw [← hc]
  exact isWs_digitChar _

theorem tsStr_not_nl (t : TS) (h : tsOk t) : ('\n' : Char) ∉ tsStr t := by
  rw [tsStr_eq t h]
  intro hmem
  simp at hmem
  rcases hmem with h | h | h | h | h | h | h | h | h <;>
    first
      | exact absurd h.symm (digitChar_ne_nl _)
      | simp at h

theorem tsLine_not_nl (a b : TS) (ha : tsOk a) (hb : tsOk b) :
    ('\n' : Char) ∉ tsLine a b := by
  unfold tsLine
  intro hmem
  rcases List.mem_append.1 hmem with h | h
  · rcases List.mem_append.1 h with h2 | h2
    · exact tsStr_not_nl a ha h2
    · simp [arrowStr] at h2
  · exact tsStr_not_nl b hb h

theorem pyStrip_tsLine (a b : TS) (ha : tsOk a) (hb : tsOk b) :
    pyStrip (tsLine a b) = tsLine a b := by
  apply pyStrip_eq_self
  · intro c hc
    unfold tsLine at hc
    rw [List.append_assoc] at hc
    rcases hf : tsStr a with _ | ⟨x, tl⟩
    · exact absurd hf (tsStr_ne_nil a ha)
    · rw [hf] at hc
      simp at hc
      exact tsStr_head a ha c (by simp [hf, hc])
  · intro c hc
    unfold tsLine at hc
    rw [List.getLast?_append_of_ne_nil _ (tsStr_ne_nil b hb)] at hc
    exact tsStr_getLast b hb c hc

theorem matchDeoTime_tsLine (a b : TS) (ha : tsOk a) (hb : tsOk b) :
    matchDeoTime (tsLine a b) = some (tsStr a, tsStr b) := by
  have hlen := tsStr_length a ha
  have harrow : (arrowStr ++ tsStr b).dropWhile isWs =
      '-' :: '-' :: '>' :: ' ' :: tsStr b := by
    simp [arrowStr, List.dropWhile_cons, show isWs ' ' = true from rfl,
      show isWs '-' = false from rfl]
  have hdw : (' ' :: tsStr b).dropWhile isWs = tsStr b := by
    rw [List.dropWhile_cons]
    simp only [show isWs ' ' = true from rfl, if_pos]
    exact dropWhile_eq_self_of_head _ (tsStr_head b hb)
  have htk : (tsStr b).take 12 = tsStr b := by
    rw [← tsStr_length b hb]
    exact List.take_length _
  simp only [matchDeoTime, tsLine, List.append_assoc]
  rw [List.take_left' hlen, List.drop_left' hlen]
  rw [timeRe12_tsStr a ha, harrow]
  simp only [List.take_succ_cons, List.take_zero, List.drop_succ_cons, List.drop_zero]
  rw [hdw, htk, timeRe12_tsStr b hb]
  simp

theorem isIndexLine_not_nl {l : Str} (h : isIndexLine l = true) : ('\n' : Char) ∉ l := by
  intro hmem
  unfold isIndexLine at h
  simp at h
  exact absurd (h.2 '\n' hmem) (by decide)

/-! ## Stepping equations for the `_deoverlap_srt` loop -/

theorem deoGo_cons_normal_index (l : Str) (rest : List Str) (o : List Str)
    (pe : Option ℚ) (pi : Option Nat) (h : isIndexLine (pyStrip l) = true) :
    deoGo (l :: rest) .normal ⟨o, pe, pi⟩ =
      deoGo rest .afterIndex ⟨o ++ [l], pe, pi⟩ := by
  simp [deoGo, h]

theorem deoGo_cons_normal_other (l : Str) (rest : List Str) (o : List Str)
    (pe : Option ℚ) (pi : Option Nat) (h : isIndexLine (pyStrip l) = false) :
    deoGo (l :: rest) .normal ⟨o, pe, pi⟩ =
      deoGo rest .normal ⟨o ++ [l], pe, pi⟩ := by
  simp [deoGo, h]

theorem deoGo_cons_afterIndex_time (l : Str) (rest : List Str) (o : List Str)
    (pe : Option ℚ) (pi : Option Nat) (g1 g2 : Str)
    (h : matchDeoTime (pyStrip l) = some (g1, g2)) :
    deoGo (l :: rest) .afterIndex ⟨o, pe, pi⟩ =
      deoGo rest .copying
        ⟨(deoShrink o pi pe (parse_time_srt g1)).1 ++
            [ftLine (parse_time_srt g1) (parse_time_srt g2)],
          some (parse_time_srt g2),
          some (((deoShrink o pi pe (parse_time_srt g1)).1 ++
            [ftLine (parse_time_srt g1) (parse_time_srt g2)]).length - 1)⟩ := by
  simp [deoGo, h]

theorem deoGo_cons_copying_text (l : Str) (rest : List Str) (o : List Str)
    (pe : Option ℚ) (pi : Option Nat) (h : pyStrip l ≠ []) :
    deoGo (l :: rest) .copying ⟨o, pe, pi⟩ =
      deoGo rest .copying ⟨o ++ [l], pe, pi⟩ := by
  simp [deoGo, h]

theorem deoGo_cons_copying_blank (l : Str) (rest : List Str) (o : List Str)
    (pe : Option ℚ) (pi : Option Nat) (h : pyStrip l = []) :
    deoGo (l :: rest) .copying ⟨o, pe, pi⟩ =
      deoGo rest .normal ⟨o ++ [[], l], pe, pi⟩ := by
  simp [deoGo, h]

theorem deoGo_nil_copying (o : List Str) (pe : Option ℚ) (pi : Option Nat) :
    deoGo [] .copying ⟨o, pe, pi⟩ = o ++ [[]] := by
  simp [deoGo]

theorem deoShrink_no_prev_fst (out : List Str) (pidx : Option Nat) (start : ℚ) :
    (deoShrink out pidx none start).1 = out := by
  cases pidx <;> rfl

theorem deoShrink_shrinks (out : List Str) (k : Nat) (pe start : ℚ) (g1 g2 : Str)
    (hov : start < pe) (hdead : ¬ fround (start - eps02) > start)
    (hm : matchDeoTime (out.getD k []) = some (g1, g2)) :
    deoShrink out (some k) (some pe) start =
      (out.set k (g1 ++ arrowStr ++ format_time_srt (fround (start - eps02))),
       some (fround (start - eps02))) := by
  simp only [deoShrink, if_pos hov, if_neg hdead, hm]



/-! ## SRT write/parse round trip (`_write_subtitle_file` / `_parse_srt_content`) -/

theorem length_dropWhile_le (p : Char → Bool) (l : Str) :
    (l.dropWhile p).length ≤ l.length := by
  induction l with
  | nil => simp
  | cons a r ih =>
    rw [List.dropWhile_cons]
    split
    · exact Nat.le_trans ih (by simp)
    · simp

/-- A string equal to its own strip has a non-whitespace first and last character. -/
theorem pyStrip_head_last {t : Str} (hst : pyStrip t = t) :
    (∀ c, t.head? = some c → isWs c = false) ∧
      (∀ c, t.getLast? = some c → isWs c = false) := by
  have hlen : (t.dropWhile isWs).length = t.length := by
    have h1 : t.length = (pyStrip t).length := by rw [hst]
    unfold pyStrip at h1
    rw [List.length_reverse] at h1
    have h2 := length_dropWhile_le isWs (t.dropWhile isWs).reverse
    rw [List.length_reverse] at h2
    have h3 := length_dropWhile_le isWs t
    omega
  have hdw : t.dropWhile isWs = t := by
    cases t with
    | nil => rfl
    | cons a r =>
      rw [List.dropWhile_cons]
      split
      · rw [List.dropWhile_cons] at hlen
        split at hlen
        · have := length_dropWhile_le isWs r
          simp at hlen
          omega
        · simp_all
      · rfl
  have hlen2 : (t.reverse.dropWhile isWs).length = t.reverse.length := by
    have h1 : t.length = (pyStrip t).length := by rw [hst]
    unfold pyStrip at h1
    rw [hdw, List.length_reverse] at h1
    simp [h1]
  have hdw2 : t.reverse.dropWhile isWs = t.reverse := by
    cases hr : t.reverse with
    | nil => rfl
    | cons a r =>
      rw [hr] at hlen2
      rw [List.dropWhile_cons]
      split
      · rw [List.dropWhile_cons] at hlen2
        split at hlen2
        · have := length_dropWhile_le isWs r
          simp at hlen2
          omega
        · simp_all
      · rfl
  constructor
  · intro c hc
    cases t with
    | nil => simp at hc
    | cons a r =>
      simp at hc
      rw [List.dropWhile_cons] at hdw
      by_cases hw : isWs a
      · rw [if_pos hw] at hdw
        have h4 := length_dropWhile_le isWs r
        have h5 : (a :: r).length ≤ r.length := by rw [← hdw]; exact h4
        simp at h5
      · rw [← hc]
        simpa using hw
  · intro c hc
    have hc2 : t.reverse.head? = some c := by
      rw [List.head?_reverse]
      exact hc
    cases hr : t.reverse with
    | nil => rw [hr] at hc2; simp at hc2
    | cons a r =>
      rw [hr] at hc2 hdw2
      simp at hc2
      rw [List.dropWhile_cons] at hdw2
      by_cases hw : isWs a
      · rw [if_pos hw] at hdw2
        have h4 := length_dropWhile_le isWs r
        have h5 : (a :: r).length ≤ r.length := by rw [← hdw2]; exact h4
        simp at h5
      · rw [← hc2]
        simpa using hw

/-- Destructuring of a string matched by the exact 12-character SRT timestamp. -/
theorem timeRe12_elim {t : Str} (h : timeRe12 t = true) :
    ∃ a1 a2 m1 m2 s1 s2 q1 q2 q3 : Char,
      t = [a1, a2, ':', m1, m2, ':', s1, s2, ',', q1, q2, q3] ∧
      (∀ c ∈ t, c.isDigit = true ∨ c = ':' ∨ c = ',') := by
  unfold timeRe12 at h
  split at h
  case _ a1 a2 c1 m1 m2 c2 s1 s2 c3 q1 q2 q3 =>
    simp only [Bool.and_eq_true, decide_eq_true_eq] at h
    obtain ⟨⟨⟨⟨⟨⟨⟨⟨⟨⟨⟨hd1, hd2⟩, hc1⟩, hd3⟩, hd4⟩, hc2⟩, hd5⟩, hd6⟩, hc3⟩, hd7⟩, hd8⟩, hd9⟩ := h
    subst hc1; subst hc2; subst hc3
    refine ⟨a1, a2, m1, m2, s1, s2, q1, q2, q3, rfl, ?_⟩
    intro c hc
    simp at hc
    rcases hc with rfl | rfl | h | rfl | rfl | h | rfl | rfl | h | rfl | rfl | rfl <;>
      simp_all
  case _ => simp at h

theorem timeRe12_length {t : Str} (h : timeRe12 t = true) : t.length = 12 := by
  obtain ⟨a1, a2, m1, m2, s1, s2, q1, q2, q3, rfl, _⟩ := timeRe12_elim h
  rfl

theorem isDigit_ne_nl {c : Char} (h : c.isDigit = true) : c ≠ '\n' := by
  intro hc
  subst hc
  simp [Char.isDigit] at h

theorem timeRe12_not_nl {t : Str} (h : timeRe12 t = true) : ('\n' : Char) ∉ t := by
  obtain ⟨a1, a2, m1, m2, s1, s2, q1, q2, q3, rfl, hall⟩ := timeRe12_elim h
  intro hmem
  rcases hall _ hmem with hd | hc | hc
  · exact isDigit_ne_nl hd rfl
  · simp at hc
  · simp at hc

/-- The well-formedness hypotheses of the round-trip claim (amended): exact
timestamp shape, and a non-empty single-line text with no surrounding
whitespace. -/
def cueOk (c : Cue) : Prop :=
  timeRe12 c.start_time = true ∧ timeRe12 c.end_time = true ∧
  c.text ≠ [] ∧ ('\n' : Char) ∉ c.text ∧ pyStrip c.text = c.text

/-- The time line of a written block. -/
def srtTimeLine (c : Cue) : Str := c.start_time ++ arrowStr ++ c.end_time

/-- One written block without its trailing blank separator. -/
def srtCore (i : Nat) (c : Cue) : Str :=
  natToDigits i ++ '\n' :: (srtTimeLine c ++ '\n' :: c.text)

theorem writeSrtAux_cons (i : Nat) (c : Cue) (rest : List Cue) :
    writeSrtAux i (c :: rest) = srtCore i c ++ '\n' :: '\n' :: writeSrtAux (i + 1) rest := by
  simp [writeSrtAux, srtCore, srtTimeLine]

/-- The `"\n\n"`-joined list of cores. -/
def interNN : List Str → Str
  | [] => []
  | [x] => x
  | x :: y :: t => x ++ '\n' :: '\n' :: interNN (y :: t)

/-- The cores of the blocks written for `subs`, starting at index `i`. -/
def coresFrom (i : Nat) : List Cue → List Str
  | [] => []
  | c :: rest => srtCore i c :: coresFrom (i + 1) rest

theorem writeSrtAux_eq_interNN (i : Nat) (subs : List Cue) (hne : subs ≠ []) :
    writeSrtAux i subs = interNN (coresFrom i subs) ++ ['\n', '\n'] := by
  induction subs generalizing i with
  | nil => exact absurd rfl hne
  | cons c rest ih =>
    rw [writeSrtAux_cons]
    cases rest with
    | nil => simp [writeSrtAux, interNN, coresFrom]
    | cons c2 r2 =>
      rw [ih (i + 1) (by simp)]
      rw [show coresFrom i (c :: c2 :: r2) = srtCore i c :: coresFrom (i + 1) (c2 :: r2)
        from rfl]
      cases hc : coresFrom (i + 1) (c2 :: r2) with
      | nil => simp [coresFrom] at hc
      | cons z t =>
        rw [show interNN (srtCore i c :: z :: t) =
          srtCore i c ++ '\n' :: '\n' :: interNN (z :: t) from rfl]
        simp

theorem natToDigits_head_digit (n : Nat) :
    ∀ c, (natToDigits n).head? = some c → c.isDigit = true := by
  intro c hc
  cases h : natToDigits n with
  | nil => exact absurd h (natToDigits_ne_nil n)
  | cons a t =>
    rw [h] at hc
    simp at hc
    exact natToDigits_all_digit n c (by rw [h, ← hc]; exact List.mem_cons_self a t)

theorem natToDigits_not_nl (n : Nat) : ('\n' : Char) ∉ natToDigits n := by
  intro hmem
  exact isDigit_ne_nl (natToDigits_all_digit n _ hmem) rfl

theorem srtTimeLine_not_nl {c : Cue} (h : cueOk c) : ('\n' : Char) ∉ srtTimeLine c := by
  obtain ⟨h1, h2, _, _, _⟩ := h
  intro hmem
  unfold srtTimeLine at hmem
  rcases List.mem_append.1 hmem with hm | hm
  · rcases List.mem_append.1 hm with hm2 | hm2
    · exact timeRe12_not_nl h1 hm2
    · simp [arrowStr] at hm2
  · exact timeRe12_not_nl h2 hm

theorem hasNN_cons_nl (s : Str) (hh : s.head? ≠ some '\n') (hs : hasNN s = false) :
    hasNN ('\n' :: s) = false := by
  cases s with
  | nil => rfl
  | cons b t =>
    simp only [hasNN]
    simp at hh
    simp [hh, hs]

theorem head?_ne_nl_of_not_mem {s : Str} (h : ('\n' : Char) ∉ s) : s.head? ≠ some '\n' := by
  cases s with
  | nil => simp
  | cons a t =>
    simp only [List.head?_cons]
    intro hc
    simp at hc
    exact h (hc ▸ List.mem_cons_self a t)

theorem hasNN_of_not_mem {s : Str} (h : ('\n' : Char) ∉ s) : hasNN s = false := by
  induction s with
  | nil => rfl
  | cons a t ih =>
    have ha : a ≠ '\n' := fun hc => h (hc ▸ List.mem_cons_self a t)
    have ht := ih (fun hm => h (List.mem_cons_of_mem a hm))
    cases t with
    | nil => rfl
    | cons b t2 => simp [hasNN, ha, ht]

theorem hasNN_srtCore (i : Nat) {c : Cue} (h : cueOk c) : hasNN (srtCore i c) = false := by
  obtain ⟨h1, h2, hne, hnl, hst⟩ := h
  unfold srtCore
  rw [hasNN_append_of_not_mem _ (natToDigits_not_nl i)]
  apply hasNN_cons_nl
  · rw [List.head?_append_of_ne_nil _ (by
      unfold srtTimeLine
      intro hc
      rw [List.append_assoc] at hc
      have hlen := timeRe12_length h1
      have hnil : c.start_time = [] := (List.append_eq_nil.1 hc).1
      rw [hnil] at hlen
      simp at hlen)]
    apply head?_ne_nl_of_not_mem
    exact srtTimeLine_not_nl ⟨h1, h2, hne, hnl, hst⟩
  · rw [hasNN_append_of_not_mem _ (srtTimeLine_not_nl ⟨h1, h2, hne, hnl, hst⟩)]
    apply hasNN_cons_nl
    · exact head?_ne_nl_of_not_mem hnl
    · exact hasNN_of_not_mem hnl

theorem srtCore_getLast {i : Nat} {c : Cue} (h : cueOk c) :
    (srtCore i c).getLast? = c.text.getLast? := by
  obtain ⟨h1, h2, hne, hnl, hst⟩ := h
  unfold srtCore
  rw [List.getLast?_append_of_ne_nil _ (by simp)]
  rw [show ('\n' :: (srtTimeLine c ++ '\n' :: c.text)) =
    ('\n' :: srtTimeLine c ++ ['\n']) ++ c.text by simp]
  rw [List.getLast?_append_of_ne_nil _ hne]

theorem srtCore_head {i : Nat} {c : Cue} :
    (srtCore i c).head? = (natToDigits i).head? := by
  unfold srtCore
  rw [List.head?_append_of_ne_nil _ (natToDigits_ne_nil i)]

theorem splitChar_srtCore (i : Nat) {c : Cue} (h : cueOk c) :
    splitChar '\n' (srtCore i c) = [natToDigits i, srtTimeLine c, c.text] := by
  obtain ⟨h1, h2, hne, hnl, hst⟩ := h
  unfold srtCore
  rw [splitChar_append _ (natToDigits_not_nl i)]
  rw [splitChar_append _ (srtTimeLine_not_nl ⟨h1, h2, hne, hnl, hst⟩)]
  rw [splitChar_of_not_mem hnl]

theorem matchSrtTime_srtTimeLine {c : Cue} (h : cueOk c) :
    matchSrtTime (srtTimeLine c) = some (c.start_time, c.end_time) := by
  obtain ⟨h1, h2, _, _, _⟩ := h
  simp only [matchSrtTime, srtTimeLine, List.append_assoc]
  rw [List.take_left' (timeRe12_length h1), List.drop_left' (timeRe12_length h1)]
  rw [List.take_left' (show arrowStr.length = 5 from rfl),
      List.drop_left' (show arrowStr.length = 5 from rfl)]
  have htk : c.end_time.take 12 = c.end_time := by
    rw [← timeRe12_length h2]
    exact List.take_length _
  rw [htk, h1, h2]
  simp

/-- A written block parses back to its cue. -/
theorem parseSrtBlock_srtCore (i : Nat) {c : Cue} (h : cueOk c) :
    parseSrtBlock (srtCore i c) = some c := by
  obtain ⟨h1, h2, hne, hnl, hst⟩ := h
  have hOk : cueOk c := ⟨h1, h2, hne, hnl, hst⟩
  have hstrip : pyStrip (srtCore i c) = srtCore i c := by
    apply pyStrip_eq_self
    · intro x hx
      rw [srtCore_head] at hx
      exact isDigit_not_isWs (natToDigits_head_digit i x hx)
    · intro x hx
      rw [srtCore_getLast hOk] at hx
      exact (pyStrip_head_last hst).2 x hx
  unfold parseSrtBlock
  rw [hstrip, splitChar_srtCore i hOk]
  rw [if_pos (by simp)]
  rw [show List.getD [natToDigits i, srtTimeLine c, c.text] 1 [] = srtTimeLine c from rfl]
  rw [matchSrtTime_srtTimeLine hOk]
  rw [show List.drop 2 [natToDigits i, srtTimeLine c, c.text] = [c.text] from rfl]
  rw [show joinSpace [c.text] = c.text by simp [joinSpace]]
  rw [hst]

theorem interNN_getLast {cs : List Str} (hne : cs ≠ [])
    (hcne : ∀ x ∈ cs, x ≠ []) :
    interNN cs = [] → False := by
  cases cs with
  | nil => exact absurd rfl hne
  | cons x t =>
    cases t with
    | nil =>
      intro hc
      exact hcne x (by simp) hc
    | cons y t2 =>
      intro hc
      rw [show interNN (x :: y :: t2) = x ++ '\n' :: '\n' :: interNN (y :: t2) from rfl] at hc
      simp at hc

theorem interNN_getLast_eq {cs : List Str} (hcne : ∀ x ∈ cs, x ≠ []) :
    (interNN cs).getLast? = (cs.getLast?.getD []).getLast? := by
  induction cs with
  | nil => rfl
  | cons x t ih =>
    cases t with
    | nil => rfl
    | cons y t2 =>
      rw [show interNN (x :: y :: t2) = x ++ '\n' :: '\n' :: interNN (y :: t2) from rfl]
      rw [List.getLast?_append_of_ne_nil _ (by simp)]
      rw [show ('\n' :: '\n' :: interNN (y :: t2)) = ['\n', '\n'] ++ interNN (y :: t2) from rfl]
      rw [List.getLast?_append_of_ne_nil _ (fun hc =>
        interNN_getLast (by simp) (fun z hz => hcne z (List.mem_cons_of_mem x hz)) hc)]
      rw [ih (fun z hz => hcne z (List.mem_cons_of_mem x hz))]
      rw [List.getLast?_cons_cons]

theorem splitNN_interNN {cs : List Str} (hne : cs ≠ [])
    (hok : ∀ x ∈ cs, hasNN x = false ∧ x.getLast? ≠ some '\n') :
    splitNN (interNN cs) = cs := by
  induction cs with
  | nil => exact absurd rfl hne
  | cons x t ih =>
    cases t with
    | nil => exact splitNN_single (hok x (by simp)).1
    | cons y t2 =>
      rw [show interNN (x :: y :: t2) = x ++ '\n' :: '\n' :: interNN (y :: t2) from rfl]
      rw [splitNN_sep _ (hok x (by simp)).1 (hok x (by simp)).2]
      rw [ih (by simp) (fun z hz => hok z (List.mem_cons_of_mem x hz))]

theorem coresFrom_mem {i : Nat} {subs : List Cue} :
    ∀ x ∈ coresFrom i subs, ∃ j c, c ∈ subs ∧ x = srtCore j c := by
  induction subs generalizing i with
  | nil => simp [coresFrom]
  | cons c rest ih =>
    intro x hx
    rw [show coresFrom i (c :: rest) = srtCore i c :: coresFrom (i + 1) rest from rfl] at hx
    rcases List.mem_cons.1 hx with rfl | hx
    · exact ⟨i, c, by simp⟩
    · obtain ⟨j, c2, hc2, hx2⟩ := ih x hx
      exact ⟨j, c2, List.mem_cons_of_mem _ hc2, hx2⟩

theorem filterMap_coresFrom (i : Nat) (subs : List Cue) (hok : ∀ c ∈ subs, cueOk c) :
    (coresFrom i subs).filterMap parseSrtBlock = subs := by
  induction subs generalizing i with
  | nil => simp [coresFrom]
  | cons c rest ih =>
    rw [show coresFrom i (c :: rest) = srtCore i c :: coresFrom (i + 1) rest from rfl]
    rw [List.filterMap_cons]
    rw [parseSrtBlock_srtCore i (hok c (by simp))]
    rw [ih (i + 1) (fun x hx => hok x (List.mem_cons_of_mem c hx))]

theorem pyStrip_append_nn {X : Str}
    (hh : ∀ c, X.head? = some c → isWs c = false)
    (hl : ∀ c, X.getLast? = some c → isWs c = false) :
    pyStrip (X ++ ['\n', '\n']) = X := by
  cases X with
  | nil => rfl
  | cons a X2 =>
    have ha : isWs a = false := hh a rfl
    unfold pyStrip
    rw [List.cons_append, List.dropWhile_cons, ha]
    simp only [Bool.false_eq_true, if_neg, ite_false]
    rw [show ((a :: (X2 ++ ['\n', '\n'])) : Str).reverse =
      '\n' :: '\n' :: (a :: X2).reverse by simp]
    rw [List.dropWhile_cons, List.dropWhile_cons]
    rw [show isWs '\n' = true from rfl]
    simp only [if_pos]
    rw [dropWhile_eq_self_of_head _ (fun c hc =>
      hl c (by rwa [List.head?_reverse] at hc))]
    exact List.reverse_reverse _

theorem interNN_head {cs : List Str} (hne : cs ≠ []) (hcne : ∀ x ∈ cs, x ≠ []) :
    (interNN cs).head? = (cs.head (by exact hne)).head? := by
  cases cs with
  | nil => exact absurd rfl hne
  | cons x t =>
    cases t with
    | nil => rfl
    | cons y t2 =>
      rw [show interNN (x :: y :: t2) = x ++ '\n' :: '\n' :: interNN (y :: t2) from rfl]
      rw [List.head?_append_of_ne_nil _ (hcne x (by simp))]
      rfl

/-- The SRT round trip, for cues with exact timestamps and non-empty,
single-line, whitespace-trimmed text. -/
theorem parse_write_roundtrip (subs : List Cue) (hok : ∀ c ∈ subs, cueOk c) :
    parse_srt_content (write_subtitle_file subs) = subs := by
  cases subs with
  | nil => rfl
  | cons c0 rest =>
    unfold write_subtitle_file parse_srt_content
    rw [writeSrtAux_eq_interNN 1 _ (by simp)]
    have hcne : ∀ x ∈ coresFrom 1 (c0 :: rest), x ≠ [] := by
      intro x hx
      obtain ⟨j, c, _, rfl⟩ := coresFrom_mem x hx
      unfold srtCore
      intro hc
      exact natToDigits_ne_nil j (List.append_eq_nil.1 hc).1
    have hcoresne : coresFrom 1 (c0 :: rest) ≠ [] := by
      simp [coresFrom]
    have hcoreLast : ∀ x ∈ coresFrom 1 (c0 :: rest),
        ∀ c, x.getLast? = some c → isWs c = false := by
      intro x hx
      obtain ⟨j, c, hc, rfl⟩ := coresFrom_mem x hx
      intro d hd
      rw [srtCore_getLast (hok c hc)] at hd
      exact (pyStrip_head_last (hok c hc).2.2.2.2).2 d hd
    have hstrip : pyStrip (interNN (coresFrom 1 (c0 :: rest)) ++ ['\n', '\n']) =
        interNN (coresFrom 1 (c0 :: rest)) := by
      apply pyStrip_append_nn
      · intro c hc
        rw [interNN_head hcoresne hcne] at hc
        have hmem : (coresFrom 1 (c0 :: rest)).head (by exact hcoresne) ∈
            coresFrom 1 (c0 :: rest) := List.head_mem _
        obtain ⟨j, c2, _, hx⟩ := coresFrom_mem _ hmem
        rw [hx, srtCore_head] at hc
        exact isDigit_not_isWs (natToDigits_head_digit j c hc)
      · intro c hc
        rw [interNN_getLast_eq hcne] at hc
        cases hg : (coresFrom 1 (c0 :: rest)).getLast? with
        | none => exact absurd (List.getLast?_eq_none_iff.1 hg) hcoresne
        | some L =>
          rw [hg] at hc
          exact hcoreLast L (List.mem_of_mem_getLast? hg) c hc
    rw [hstrip]
    rw [splitNN_interNN hcoresne (by
      intro x hx
      obtain ⟨j, c, hc, rfl⟩ := coresFrom_mem x hx
      refine ⟨hasNN_srtCore j (hok c hc), ?_⟩
      intro hlast
      have := hcoreLast _ hx '\n' hlast
      simp [isWs] at this)]
    exact filterMap_coresFrom 1 _ hok

/-! ## Lemmas about the translation batcher -/

/-- A response that fails `_translate_batch`'s validation: undecodable, or a
decoded array whose length differs from the batch. -/
def respFails (subs : List Cue) : Resp → Prop
  | .invalid => True
  | .decoded items => items.length ≠ subs.length

theorem tbLoop_eq_good {subs : List Cue} {oracle : Nat → Resp} {calls budget : Nat}
    {items : List Item} (hg : oracle (calls - 1) = .decoded items)
    (hl : items.length = subs.length) :
    tbLoop subs oracle calls budget = (.ok (combineBatch subs items), calls) := by
  cases budget with
  | zero =>
    simp only [tbLoop]
    rw [hg]
    simp [hl]
  | succ b =>
    simp only [tbLoop]
    rw [hg]
    simp [hl]

theorem tbLoop_eq_retry_inv {subs : List Cue} {oracle : Nat → Resp} {calls b : Nat}
    (hg : oracle (calls - 1) = .invalid) :
    tbLoop subs oracle calls (b + 1) = tbLoop subs oracle (calls + 1) b := by
  simp only [tbLoop]
  rw [hg]

theorem tbLoop_eq_fail_inv {subs : List Cue} {oracle : Nat → Resp} {calls : Nat}
    (hg : oracle (calls - 1) = .invalid) :
    tbLoop subs oracle calls 0 = (.error .jsonError, calls) := by
  simp only [tbLoop]
  rw [hg]

theorem tbLoop_eq_retry_len {subs : List Cue} {oracle : Nat → Resp} {calls b : Nat}
    {its : List Item} (hg : oracle (calls - 1) = .decoded its)
    (hl : its.length ≠ subs.length) :
    tbLoop subs oracle calls (b + 1) = tbLoop subs oracle (calls + 1) b := by
  simp only [tbLoop]
  rw [hg]
  simp [hl]

theorem tbLoop_eq_fail_len {subs : List Cue} {oracle : Nat → Resp} {calls : Nat}
    {its : List Item} (hg : oracle (calls - 1) = .decoded its)
    (hl : its.length ≠ subs.length) :
    tbLoop subs oracle calls 0 = (.error (.lengthMismatch subs.length its.length), calls) := by
  simp only [tbLoop]
  rw [hg]
  simp [hl]

theorem tbLoop_ok (subs : List Cue) (oracle : Nat → Resp) (items : List Item)
    (hlen : items.length = subs.length) :
    ∀ k calls budget, k ≤ budget → 1 ≤ calls →
    (∀ j, j < k → respFails subs (oracle (calls - 1 + j))) →
    oracle (calls - 1 + k) = .decoded items →
    tbLoop subs oracle calls budget = (.ok (combineBatch subs items), calls + k) := by
  intro k
  induction k with
  | zero =>
    intro calls budget _ _ _ hgood
    simp only [Nat.add_zero] at hgood
    rw [tbLoop_eq_good hgood hlen]
    simp
  | succ k ih =>
    intro calls budget hk hc hfail hgood
    have hf0 : respFails subs (oracle (calls - 1)) := by
      have := hfail 0 (by omega)
      simpa using this
    obtain ⟨b, rfl⟩ : ∃ b, budget = b + 1 := ⟨budget - 1, by omega⟩
    have hrec : ∀ j, j < k → respFails subs (oracle (calls + 1 - 1 + j)) := by
      intro j hj
      have := hfail (j + 1) (by omega)
      have harith : calls - 1 + (j + 1) = calls + 1 - 1 + j := by omega
      rwa [harith] at this
    have hgood2 : oracle (calls + 1 - 1 + k) = .decoded items := by
      have harith : calls - 1 + (k + 1) = calls + 1 - 1 + k := by omega
      rwa [harith] at hgood
    have hres := ih (calls + 1) b (by omega) (by omega) hrec hgood2
    have harith2 : calls + 1 + k = calls + (k + 1) := by omega
    cases ho : oracle (calls - 1) with
    | invalid =>
      rw [tbLoop_eq_retry_inv ho, hres, harith2]
    | decoded its =>
      rw [ho] at hf0
      simp only [respFails] at hf0
      rw [tbLoop_eq_retry_len ho hf0, hres, harith2]

theorem tbLoop_fail (subs : List Cue) (oracle : Nat → Resp)
    (hfail : ∀ j, respFails subs (oracle j)) :
    ∀ budget calls, ∃ e, tbLoop subs oracle calls budget = (.error e, calls + budget) := by
  intro budget
  induction budget with
  | zero =>
    intro calls
    cases ho : oracle (calls - 1) with
    | invalid => exact ⟨.jsonError, by rw [tbLoop_eq_fail_inv ho]; simp⟩
    | decoded its =>
      have := hfail (calls - 1)
      rw [ho] at this
      simp only [respFails] at this
      exact ⟨.lengthMismatch subs.length its.length, by
        rw [tbLoop_eq_fail_len ho this]
        simp⟩
  | succ b ih =>
    intro calls
    obtain ⟨e, he⟩ := ih (calls + 1)
    have harith : calls + 1 + b = calls + (b + 1) := by omega
    cases ho : oracle (calls - 1) with
    | invalid =>
      exact ⟨e, by rw [tbLoop_eq_retry_inv ho, he, harith]⟩
    | decoded its =>
      have := hfail (calls - 1)
      rw [ho] at this
      simp only [respFails] at this
      exact ⟨e, by rw [tbLoop_eq_retry_len ho this, he, harith]⟩

theorem combineBatch_length (subs : List Cue) (items : List Item)
    (h : items.length = subs.length) : (combineBatch subs items).length = subs.length := by
  unfold combineBatch
  rw [List.length_zipWith, h, Nat.min_self]

theorem combineBatch_getElem :
    ∀ (subs : List Cue) (items : List Item) (j : Nat) (sub : Cue) (it : Item),
    subs[j]? = some sub → items[j]? = some it →
    (combineBatch subs items)[j]? =
      some ⟨sub.start_time, sub.end_time, resolveText sub.text it⟩ := by
  intro subs
  induction subs with
  | nil => intro items j sub it h1; simp at h1
  | cons c rest ih =>
    intro items j sub it h1 h2
    cases items with
    | nil => simp at h2
    | cons i0 irest =>
      cases j with
      | zero =>
        simp at h1 h2
        subst h1; subst h2
        simp [combineBatch]
      | succ j2 =>
        simp only [List.getElem?_cons_succ] at h1 h2
        rw [show combineBatch (c :: rest) (i0 :: irest) =
          ⟨c.start_time, c.end_time, resolveText c.text i0⟩ ::
            combineBatch rest irest from rfl]
        rw [List.getElem?_cons_succ]
        exact ih irest j2 sub it h1 h2

/-- Every successful run of the retry loop returns a reassembled batch. -/
theorem tbLoop_ok_inv (subs : List Cue) (oracle : Nat → Resp) :
    ∀ budget calls out calls2, tbLoop subs oracle calls budget = (.ok out, calls2) →
    ∃ items, items.length = subs.length ∧ out = combineBatch subs items := by
  intro budget
  induction budget with
  | zero =>
    intro calls out calls2 h
    cases ho : oracle (calls - 1) with
    | invalid =>
      rw [tbLoop_eq_fail_inv ho] at h
      simp at h
    | decoded its =>
      by_cases hl : its.length = subs.length
      · rw [tbLoop_eq_good ho hl] at h
        simp at h
        exact ⟨its, hl, h.1.symm⟩
      · rw [tbLoop_eq_fail_len ho hl] at h
        simp at h
  | succ b ih =>
    intro calls out calls2 h
    cases ho : oracle (calls - 1) with
    | invalid =>
      rw [tbLoop_eq_retry_inv ho] at h
      exact ih (calls + 1) out calls2 h
    | decoded its =>
      by_cases hl : its.length = subs.length
      · rw [tbLoop_eq_good ho hl] at h
        simp at h
        exact ⟨its, hl, h.1.symm⟩
      · rw [tbLoop_eq_retry_len ho hl] at h
        exact ih (calls + 1) out calls2 h

/-- A successful `_translate_batch` preserves the batch length and every cue's
timing. -/
theorem translate_batch_ok (subs : List Cue) (oracle : Nat → Resp) (out : List Cue)
    (calls : Nat) (h : translate_batch subs oracle = (.ok out, calls)) :
    out.length = subs.length ∧
      ∀ (j : Nat) (sub outc : Cue), subs[j]? = some sub → out[j]? = some outc →
        outc.start_time = sub.start_time ∧ outc.end_time = sub.end_time := by
  obtain ⟨items, hlen, rfl⟩ := tbLoop_ok_inv subs oracle 3 1 out calls h
  refine ⟨combineBatch_length subs items hlen, ?_⟩
  intro j sub outc hs ho
  have hjs : j < subs.length := by
    by_contra hge
    rw [List.getElem?_eq_none (by omega)] at hs
    exact Option.noConfusion hs
  cases hit : items[j]? with
  | none =>
    rw [List.getElem?_eq_none_iff] at hit
    omega
  | some it =>
    have hcomb := combineBatch_getElem subs items j sub it hs hit
    rw [hcomb] at ho
    have he : outc = ⟨sub.start_time, sub.end_time, resolveText sub.text it⟩ :=
      (Option.some.inj ho).symm
    rw [he]
    exact ⟨rfl, rfl⟩

theorem chunk20F_fuel :
    ∀ (fuel1 fuel2 : Nat) (l : List Cue), l.length ≤ fuel1 → l.length ≤ fuel2 →
    chunk20F fuel1 l = chunk20F fuel2 l := by
  intro fuel1
  induction fuel1 with
  | zero =>
    intro fuel2 l h1 _
    have : l = [] := List.eq_nil_of_length_eq_zero (by omega)
    subst this
    cases fuel2 <;> rfl
  | succ f ih =>
    intro fuel2 l h1 h2
    cases l with
    | nil => cases fuel2 <;> rfl
    | cons c rest =>
      obtain ⟨f2, rfl⟩ : ∃ f2, fuel2 = f2 + 1 := ⟨fuel2 - 1, by simp at h2; omega⟩
      show (c :: rest.take 19) :: chunk20F f (rest.drop 19) =
        (c :: rest.take 19) :: chunk20F f2 (rest.drop 19)
      have hd : (rest.drop 19).length ≤ rest.length := by
        simp
      simp at h1 h2
      rw [ih f2 (rest.drop 19) (by omega) (by omega)]

theorem chunk20_cons (c : Cue) (rest : List Cue) :
    chunk20 (c :: rest) = (c :: rest.take 19) :: chunk20 (rest.drop 19) := by
  unfold chunk20
  show (c :: rest.take 19) :: chunk20F rest.length (rest.drop 19) =
    (c :: rest.take 19) :: chunk20F (rest.drop 19).length (rest.drop 19)
  rw [chunk20F_fuel rest.length (rest.drop 19).length (rest.drop 19) (by simp) (by omega)]

theorem chunk20_flatten_aux :
    ∀ (n : Nat) (l : List Cue), l.length ≤ n → (chunk20 l).flatten = l := by
  intro n
  induction n with
  | zero =>
    intro l h
    have : l = [] := List.eq_nil_of_length_eq_zero (by omega)
    subst this
    rfl
  | succ n ih =>
    intro l h
    cases l with
    | nil => rfl
    | cons c rest =>
      rw [chunk20_cons, List.flatten_cons]
      have hlen : (rest.drop 19).length ≤ n := by
        simp at h ⊢
        omega
      rw [ih (rest.drop 19) hlen]
      simp

theorem chunk20_flatten (l : List Cue) : (chunk20 l).flatten = l :=
  chunk20_flatten_aux l.length l le_rfl

/-- A successful `_translate_subtitles` run yields exactly one output cue per
input cue across all batches. -/
theorem tsGo_ok_length (oracles : Nat → Nat → Resp) :
    ∀ (batches : List (List Cue)) (i calls0 : Nat) (out : List Cue) (calls : Nat),
    tsGo oracles batches i calls0 = (.ok out, calls) →
    out.length = batches.flatten.length := by
  intro batches
  induction batches with
  | nil =>
    intro i calls0 out calls h
    simp [tsGo] at h
    simp [h.1.symm]
  | cons b rest ih =>
    intro i calls0 out calls h
    rw [show tsGo oracles (b :: rest) i calls0 =
      (match translate_batch b (oracles i) with
       | (Except.error e, c) => (Except.error e, calls0 + c)
       | (Except.ok out1, c) =>
         match tsGo oracles rest (i + 1) (calls0 + c) with
         | (Except.ok outs, totc) => (Except.ok (out1 ++ outs), totc)
         | r => r) from rfl] at h
    split at h
    · simp at h
    · rename_i out1 c htb
      split at h
      · rename_i outs totc hts
        simp at h
        obtain ⟨h1, _⟩ := h
        have hb := (translate_batch_ok b (oracles i) out1 c htb).1
        have hr := ih (i + 1) (calls0 + c) outs totc hts
        rw [← h1]
        simp [hb, hr]
      · rename_i hno
        exact absurd h (hno out calls)

theorem translate_subtitles_ok_length (subs : List Cue) (oracles : Nat → Nat → Resp)
    (out : List Cue) (calls : Nat)
    (h : translate_subtitles subs oracles = (.ok out, calls)) :
    out.length = subs.length := by
  unfold translate_subtitles at h
  have := tsGo_ok_length oracles (chunk20 subs) 0 0 out calls h
  rwa [chunk20_flatten subs] at this

/-! ## Decidability instances (used to check hypotheses on concrete inputs) -/

instance : DecidablePred cueOk := fun c => by
  unfold cueOk
  infer_instance

instance : DecidablePred tsOk := fun t => by
  unfold tsOk
  infer_instance


def respFailsDec (subs : List Cue) : (r : Resp) → Decidable (respFails subs r)
  | .invalid => .isTrue trivial
  | .decoded items => inferInstanceAs (Decidable (items.length ≠ subs.length))

instance (subs : List Cue) : DecidablePred (respFails subs) := respFailsDec subs

/-! ## The claims -/

/-- Claim C1: for a single batch, if the service returns a failing
(length-mismatched or undecodable) response exactly `k < 3` times followed by
a valid response, `_translate_batch` succeeds after exactly `k + 1` calls; if
every response fails validation, it raises after exactly 4 calls
(1 initial + 3 retries). -/
theorem claim_C1_retry_termination (subs : List Cue) (items : List Item)
    (bad alwaysBad : Nat → Resp) (k : Nat) (hk : k < 3)
    (hbad : ∀ j, j < k → respFails subs (bad j))
    (hlen : items.length = subs.length)
    (hab : ∀ j, respFails subs (alwaysBad j)) :
    translate_batch subs (fun i => if i < k then bad i else .decoded items) =
      (.ok (combineBatch subs items), k + 1) ∧
    (∃ e, translate_batch subs alwaysBad = (.error e, 4)) := by
  constructor
  · have := tbLoop_ok subs (fun i => if i < k then bad i else .decoded items) items hlen
      k 1 3 (by omega) (by omega)
      (by
        intro j hj
        simpa [hj] using hbad j hj)
      (by simp)
    unfold translate_batch
    rw [this]
    congr 1
    omega
  · obtain ⟨e, he⟩ := tbLoop_fail subs alwaysBad hab 3 1
    exact ⟨e, he⟩

theorem claim_C1_retry_termination_witness :
    (translate_batch [⟨"a".data, "b".data, "hi".data⟩]
        (fun i => if i < 2 then Resp.invalid else .decoded [.obj (some "x".data) none]) =
      (.ok (combineBatch [⟨"a".data, "b".data, "hi".data⟩] [.obj (some "x".data) none]),
        2 + 1)) ∧
    (∃ e, translate_batch [⟨"a".data, "b".data, "hi".data⟩] (fun _ => Resp.invalid) =
      (.error e, 4)) :=
  claim_C1_retry_termination [⟨"a".data, "b".data, "hi".data⟩]
    [.obj (some "x".data) none] (fun _ => Resp.invalid) (fun _ => Resp.invalid) 2
    (by omega) (fun j _ => trivial) (by decide) (fun j => trivial)

/-- Claim C2: a successful `_translate_batch` returns one output cue per input
cue with the source timing kept at every position, and a successful
`_translate_subtitles` run (per-batch results concatenated in batch order)
returns a sequence of the same length as its input. -/
theorem claim_C2_batcher_correspondence :
    (∀ (subs : List Cue) (oracle : Nat → Resp) (out : List Cue) (calls : Nat),
      translate_batch subs oracle = (.ok out, calls) →
      out.length = subs.length ∧
        ∀ (j : Nat) (sub outc : Cue), subs[j]? = some sub → out[j]? = some outc →
          outc.start_time = sub.start_time ∧ outc.end_time = sub.end_time) ∧
    (∀ (subs : List Cue) (oracles : Nat → Nat → Resp) (out : List Cue) (calls : Nat),
      translate_subtitles subs oracles = (.ok out, calls) → out.length = subs.length) :=
  ⟨translate_batch_ok, translate_subtitles_ok_length⟩

theorem claim_C2_batcher_correspondence_witness :
    ([(⟨"a".data, "b".data, "y".data⟩ : Cue)].length =
      [(⟨"a".data, "b".data, "t".data⟩ : Cue)].length) ∧
    ([(⟨"a".data, "b".data, "y".data⟩ : Cue)].length =
      [(⟨"a".data, "b".data, "t".data⟩ : Cue)].length) :=
  ⟨(claim_C2_batcher_correspondence.1 [⟨"a".data, "b".data, "t".data⟩]
      (fun _ => .decoded [.obj (some "y".data) none])
      [⟨"a".data, "b".data, "y".data⟩] 1 (by rfl)).1,
   claim_C2_batcher_correspondence.2 [⟨"a".data, "b".data, "t".data⟩]
      (fun _ _ => .decoded [.obj (some "y".data) none])
      [⟨"a".data, "b".data, "y".data⟩] 1 (by rfl)⟩

/-- Claim C4 (as stated, refuted): the source uses a present `translated`
field even when it is the empty string, so an empty `translated` value does
appear as the output text although both the `original` field and the source
text are available. -/
theorem claim_C4_counterexample :
    translate_batch [⟨"a".data, "b".data, "hello".data⟩]
        (fun _ => .decoded [.obj (some []) (some "orig".data)]) =
      (.ok [⟨"a".data, "b".data, []⟩], 1) ∧
    ("orig".data ≠ ([] : Str) ∧ "hello".data ≠ ([] : Str)) :=
  ⟨by rfl, by decide⟩

/-- Claim C4, amended: when the first response decodes with a matching array
length, the text of output cue `j` is the entry's `translated` value whenever
that field is present (even when it is empty); otherwise the entry's
`original` value if present; otherwise the source cue's text. Timing is the
source cue's. -/
theorem claim_C4_amended (subs : List Cue) (items : List Item) (oracle : Nat → Resp)
    (h0 : oracle 0 = .decoded items) (hlen : items.length = subs.length) :
    translate_batch subs oracle = (.ok (combineBatch subs items), 1) ∧
    ∀ (j : Nat) (sub : Cue) (it : Item), subs[j]? = some sub → items[j]? = some it →
      (combineBatch subs items)[j]? = some ⟨sub.start_time, sub.end_time,
        match it with
        | .obj (some t) _ => t
        | .obj none (some o) => o
        | .obj none none => sub.text
        | .nonDict => sub.text⟩ := by
  constructor
  · have := tbLoop_ok subs oracle items hlen 0 1 3 (by omega) (by omega)
      (by intro j hj; omega) (by simpa using h0)
    unfold translate_batch
    rw [this]
  · intro j sub it hs hi
    rw [combineBatch_getElem subs items j sub it hs hi]
    cases it with
    | nonDict => rfl
    | obj t o => cases t <;> cases o <;> rfl

theorem claim_C4_amended_witness :
    translate_batch [⟨"a".data, "b".data, "hello".data⟩]
        (fun _ => .decoded [.obj none (some "orig".data)]) =
      (.ok (combineBatch [⟨"a".data, "b".data, "hello".data⟩]
        [.obj none (some "orig".data)]), 1) :=
  (claim_C4_amended [⟨"a".data, "b".data, "hello".data⟩] [.obj none (some "orig".data)]
    (fun _ => .decoded [.obj none (some "orig".data)]) (by rfl) (by decide)).1

/-- Claim C9: `translate_subtitle_file` writes nothing when the translation of
any batch fails (the exception propagates before the write), and performs
exactly the single whole-file write of the fully translated sequence when
translation succeeds. -/
theorem claim_C9_translation_atomicity (name content : Str) (oracles : Nat → Nat → Resp) :
    (∀ e, (translate_subtitles (read_subtitle_file name content) oracles).1 = .error e →
      translate_subtitle_file name content oracles = ⟨[], .error e⟩) ∧
    (∀ ts, (translate_subtitles (read_subtitle_file name content) oracles).1 = .ok ts →
      translate_subtitle_file name content oracles =
        ⟨[write_subtitle_file ts], .ok (write_subtitle_file ts)⟩) := by
  constructor
  · intro e he
    simp only [translate_subtitle_file]
    rw [he]
  · intro ts hts
    simp only [translate_subtitle_file]
    rw [hts]

theorem claim_C9_translation_atomicity_witness :
    translate_subtitle_file "a.srt".data
      "1\n00:00:01,000 --> 00:00:02,000\nhello\n\n".data (fun _ _ => Resp.invalid) =
      ⟨[], .error .jsonError⟩ :=
  (claim_C9_translation_atomicity "a.srt".data
    "1\n00:00:01,000 --> 00:00:02,000\nhello\n\n".data (fun _ _ => Resp.invalid)).1
    .jsonError (by rfl)

/-- Claim C10: a file name ending in neither `.srt` nor `.vtt` is read as an
empty cue sequence, translated with zero service calls, and written out as an
empty file, with the call reported as a success. -/
theorem claim_C10_unsupported_extension (name content : Str) (oracles : Nat → Nat → Resp)
    (h1 : ".srt".data.isSuffixOf name = false)
    (h2 : ".vtt".data.isSuffixOf name = false) :
    read_subtitle_file name content = [] ∧
    translate_subtitles [] oracles = (.ok [], 0) ∧
    translate_subtitle_file name content oracles = ⟨[[]], .ok []⟩ ∧
    write_subtitle_file [] = [] := by
  have hread : read_subtitle_file name content = [] := by
    unfold read_subtitle_file
    rw [h1, h2]
    simp
  refine ⟨hread, rfl, ?_, rfl⟩
  simp only [translate_subtitle_file]
  rw [hread]
  rw [show (translate_subtitles [] oracles).1 = Except.ok ([] : List Cue) from rfl]
  rfl

theorem claim_C10_unsupported_extension_witness :
    read_subtitle_file "a.txt".data "whatever".data = [] ∧
    translate_subtitles [] (fun _ _ => Resp.invalid) = (.ok [], 0) ∧
    translate_subtitle_file "a.txt".data "whatever".data (fun _ _ => Resp.invalid) =
      ⟨[[]], .ok []⟩ ∧
    write_subtitle_file [] = [] :=
  claim_C10_unsupported_extension "a.txt".data "whatever".data (fun _ _ => Resp.invalid)
    (by decide) (by decide)

/-- Refutation of claim C5 as stated: a cue whose text is non-empty and
single-line but carries surrounding whitespace does not round-trip — the
parser strips the text, so `" a "` comes back as `"a"`. -/
theorem claim_C5_counterexample :
    parse_srt_content (write_subtitle_file
        [⟨"00:00:01,000".data, "00:00:02,000".data, " a ".data⟩]) =
      [⟨"00:00:01,000".data, "00:00:02,000".data, "a".data⟩] ∧
    " a ".data ≠ "a".data ∧ " a ".data ≠ ([] : Str) ∧ ('\n' : Char) ∉ " a ".data :=
  ⟨rfl, by decide, by decide, by decide⟩

/-- Claim C5, amended: for cue sequences with exactly-shaped
`HH:MM:SS,mmm` timestamps and non-empty, single-line texts that additionally
carry no leading or trailing whitespace, parsing the serializer's output
reproduces the cues exactly (texts and times to the millisecond). -/
theorem claim_C5_srt_roundtrip (subs : List Cue) (hok : ∀ c ∈ subs, cueOk c) :
    parse_srt_content (write_subtitle_file subs) = subs :=
  parse_write_roundtrip subs hok

theorem claim_C5_srt_roundtrip_witness :
    parse_srt_content (write_subtitle_file
        [⟨"00:00:01,000".data, "00:00:02,000".data, "Hello world!".data⟩,
         ⟨"00:00:02,500".data, "00:00:04,000".data, "Bye".data⟩]) =
      [⟨"00:00:01,000".data, "00:00:02,000".data, "Hello world!".data⟩,
       ⟨"00:00:02,500".data, "00:00:04,000".data, "Bye".data⟩] :=
  claim_C5_srt_roundtrip
    [⟨"00:00:01,000".data, "00:00:02,000".data, "Hello world!".data⟩,
     ⟨"00:00:02,500".data, "00:00:04,000".data, "Bye".data⟩] (by decide)

set_option maxRecDepth 20000 in
/-- Refutation of claim C6's millisecond reading: when the overlapping cue
starts at `00:00:04,020`, the float `4.02 - 0.02` is `3.9999999999999996`,
whose format has millisecond field `round(0.9999999999999996 * 1000) = 1000`
with no carry — the previous cue's end is rewritten to the malformed
`00:00:03,1000`, not to `00:00:04,000` (start minus 0.02 s at millisecond
precision). -/
theorem claim_C6_counterexample :
    (deoverlapLines (["1", "00:00:02,000 --> 00:00:05,000", "A", "",
        "2", "00:00:04,020 --> 00:00:06,000", "B", ""].map String.data))[1]? =
      some "00:00:02,000 --> 00:00:03,1000".data ∧
    "00:00:02,000 --> 00:00:03,1000".data ≠ "00:00:02,000 --> 00:00:04,000".data := by
  constructor
  · decide
  · decide

/-- Claim C6, amended: whenever the second cue's parsed start lies strictly
before the first cue's parsed end, one `_deoverlap_srt` pass rewrites only
the first cue's end — to `start - 0.02` computed in binary64 and rendered by
the source's formatter — leaving the second cue's time line and both texts
unchanged. (The `hrt*` hypotheses state that re-formatting the parsed input
timestamps reproduces them — true of every well-formed `HH:MM:SS,mmm`
timestamp, and checked by `decide` on the witness; the claim's concrete
example `[1.0,3.0]`/`[2.5,5.0]` yields end `00:00:02,480`.) -/
theorem claim_C6_shrink_rule (i1 i2 t1 t2 : Str) (a1 b1 a2 b2 : TS)
    (ha1 : tsOk a1) (hb1 : tsOk b1) (ha2 : tsOk a2) (hb2 : tsOk b2)
    (hpi1 : pyStrip i1 = i1) (hidx1 : isIndexLine i1 = true)
    (hpi2 : pyStrip i2 = i2) (hidx2 : isIndexLine i2 = true)
    (ht1 : pyStrip t1 ≠ []) (ht2 : pyStrip t2 ≠ [])
    (hnlt1 : ('\n' : Char) ∉ t1) (hnlt2 : ('\n' : Char) ∉ t2)
    (hrt1 : format_time_srt (tsVal a1) = tsStr a1)
    (hrt2 : format_time_srt (tsVal b1) = tsStr b1)
    (hrt3 : format_time_srt (tsVal a2) = tsStr a2)
    (hrt4 : format_time_srt (tsVal b2) = tsStr b2)
    (hov : tsVal a2 < tsVal b1) :
    deoverlap_srt (joinNl [i1, tsLine a1 b1, t1, [], i2, tsLine a2 b2, t2, []]) =
      joinNl [i1, tsStr a1 ++ arrowStr ++ format_time_srt (fround (tsVal a2 - eps02)), t1,
        [], [], i2, tsLine a2 b2, t2, []] := by
  have hnl : ∀ x ∈ [i1, tsLine a1 b1, t1, ([] : Str), i2, tsLine a2 b2, t2, []],
      ('\n' : Char) ∉ x := by
    intro x hx
    rcases List.mem_cons.1 hx with rfl | hx
    · exact isIndexLine_not_nl hidx1
    rcases List.mem_cons.1 hx with rfl | hx
    · exact tsLine_not_nl a1 b1 ha1 hb1
    rcases List.mem_cons.1 hx with rfl | hx
    · exact hnlt1
    rcases List.mem_cons.1 hx with rfl | hx
    · simp
    rcases List.mem_cons.1 hx with rfl | hx
    · exact isIndexLine_not_nl hidx2
    rcases List.mem_cons.1 hx with rfl | hx
    · exact tsLine_not_nl a2 b2 ha2 hb2
    rcases List.mem_cons.1 hx with rfl | hx
    · exact hnlt2
    rcases List.mem_cons.1 hx with rfl | hx
    · simp
    simp at hx
  have hsplit : pySplitlines (joinNl [i1, tsLine a1 b1, t1, [], i2, tsLine a2 b2, t2, []]) =
      [i1, tsLine a1 b1, t1, [], i2, tsLine a2 b2, t2] := by
    unfold pySplitlines
    rw [splitChar_joinNl _ hnl (by simp)]
    rfl
  unfold deoverlap_srt
  rw [hsplit]
  unfold deoverlapLines
  rw [deoGo_cons_normal_index _ _ _ _ _ (by rw [hpi1]; exact hidx1)]
  simp only [List.nil_append]
  rw [deoGo_cons_afterIndex_time _ _ _ _ _ (tsStr a1) (tsStr b1)
    (by rw [pyStrip_tsLine a1 b1 ha1 hb1]; exact matchDeoTime_tsLine a1 b1 ha1 hb1)]
  rw [parse_tsStr a1 ha1, parse_tsStr b1 hb1, deoShrink_no_prev_fst,
    show ftLine (tsVal a1) (tsVal b1) = tsLine a1 b1 from by
      unfold ftLine tsLine
      rw [hrt1, hrt2]]
  simp only [List.cons_append, List.nil_append, List.length_cons, List.length_nil]
  norm_num
  rw [deoGo_cons_copying_text _ _ _ _ _ ht1]
  simp only [List.cons_append, List.nil_append]
  rw [deoGo_cons_copying_blank _ _ _ _ _ pyStrip_nil]
  simp only [List.cons_append, List.nil_append]
  rw [deoGo_cons_normal_index _ _ _ _ _ (by rw [hpi2]; exact hidx2)]
  simp only [List.cons_append, List.nil_append]
  rw [deoGo_cons_afterIndex_time _ _ _ _ _ (tsStr a2) (tsStr b2)
    (by rw [pyStrip_tsLine a2 b2 ha2 hb2]; exact matchDeoTime_tsLine a2 b2 ha2 hb2)]
  rw [parse_tsStr a2 ha2, parse_tsStr b2 hb2]
  rw [deoShrink_shrinks [i1, tsLine a1 b1, t1, [], [], i2] 1 (tsVal b1) (tsVal a2)
    (tsStr a1) (tsStr b1) hov
    (not_lt.mpr (fround_sub_eps_le _ (tsVal_abs_le a2 ha2)))
    (show matchDeoTime ([i1, tsLine a1 b1, t1, ([] : Str), [], i2].getD 1 []) =
        some (tsStr a1, tsStr b1) from matchDeoTime_tsLine a1 b1 ha1 hb1)]
  rw [show ftLine (tsVal a2) (tsVal b2) = tsLine a2 b2 from by
    unfold ftLine tsLine
    rw [hrt3, hrt4]]
  simp only [List.set_cons_succ, List.set_cons_zero, List.cons_append, List.nil_append]
  rw [deoGo_cons_copying_text _ _ _ _ _ ht2]
  simp only [List.cons_append, List.nil_append]
  rw [deoGo_nil_copying]
  simp

set_option maxRecDepth 20000 in
/-- Evidence for the bug refuting claim C3: with cues `[1.000, 3.000]` and
`[1.010, 5.000]`, one `_deoverlap_srt` pass rewrites the first cue's end to
`1.01 - 0.02 ≈ 0.99`, formatted `00:00:00,990`, which parses at or below its
own start `00:00:01,000` — the clamp on line 195 compares the shrunk end
against the *current* cue's start (never true) instead of the previous cue's
start, so `end > start` is not preserved and nothing is clamped. -/
theorem claim_C3_counterexample :
    (deoverlapLines (["1", "00:00:01,000 --> 00:00:03,000", "A", "",
        "2", "00:00:01,010 --> 00:00:05,000", "B", ""].map String.data))[1]? =
      some "00:00:01,000 --> 00:00:00,990".data ∧
    parse_time_srt "00:00:00,990".data ≤ parse_time_srt "00:00:01,000".data := by
  constructor
  · decide
  · decide

set_option maxRecDepth 80000 in
/-- Evidence for the bug refuting claim C7: on cues
`[0.500, 1.000], [0.600, 2.000], [0.010, 3.000]` the first pass shrinks the
second cue's end to the negative `0.01 - 0.02`, formatted as the unparseable
`-1:59:59,990`; the second pass then fails to re-match that time line while
`prev_time_line_index` still points at the first cue, and rewrites the first
cue's end from `00:00:00,580` to `-1:59:59,990` — two passes do not agree
with one pass on the cue timings. -/
theorem claim_C7_counterexample :
    (pySplitlines (deoverlap_srt
        ("1\n00:00:00,500 --> 00:00:01,000\na\n\n2\n00:00:00,600 --> 00:00:02,000\nb\n\n3\n00:00:00,010 --> 00:00:03,000\nc\n\n").data))[1]? =
      some "00:00:00,500 --> 00:00:00,580".data ∧
    (pySplitlines (deoverlap_srt (deoverlap_srt
        ("1\n00:00:00,500 --> 00:00:01,000\na\n\n2\n00:00:00,600 --> 00:00:02,000\nb\n\n3\n00:00:00,010 --> 00:00:03,000\nc\n\n").data)))[1]? =
      some "00:00:00,500 --> -1:59:59,990".data ∧
    "00:00:00,500 --> 00:00:00,580".data ≠ "00:00:00,500 --> -1:59:59,990".data := by
  refine ⟨by decide, by decide, by decide⟩

set_option maxRecDepth 40000 in
theorem claim_C6_shrink_rule_witness :
    deoverlap_srt (joinNl ["1".data, tsLine ⟨0, 0, 1, 0⟩ ⟨0, 0, 3, 0⟩, "A".data, [],
        "2".data, tsLine ⟨0, 0, 2, 500⟩ ⟨0, 0, 5, 0⟩, "B".data, []]) =
      joinNl ["1".data,
        tsStr ⟨0, 0, 1, 0⟩ ++ arrowStr ++ format_time_srt (fround (tsVal ⟨0, 0, 2, 500⟩ - eps02)),
        "A".data, [], [],
        "2".data, tsLine ⟨0, 0, 2, 500⟩ ⟨0, 0, 5, 0⟩, "B".data, []] ∧
    format_time_srt (fround (tsVal ⟨0, 0, 2, 500⟩ - eps02)) = "00:00:02,480".data :=
  ⟨claim_C6_shrink_rule "1".data "2".data "A".data "B".data ⟨0, 0, 1, 0⟩ ⟨0, 0, 3, 0⟩
      ⟨0, 0, 2, 500⟩ ⟨0, 0, 5, 0⟩ (by decide) (by decide) (by decide) (by decide)
      (by decide) (by decide) (by decide) (by decide) (by decide) (by decide)
      (by decide) (by decide) (by decide) (by decide) (by decide) (by decide)
      (by decide),
    by decide⟩

/-- Claim C8: each primary cue is paired with the first secondary cue whose
float start and end each differ from the primary cue's by strictly less than
0.5 (one rounded subtraction, as the source computes it); a (non-empty) match
yields a dialogue line with the primary text at `\fs28` joined by `\N` to the
secondary text at `\fs20` with the distinct colour `&H00FFFF&`; no match
yields a single-segment line without the break marker. -/
theorem claim_C8_bilingual_alignment (chs engs : List FCue)
    (hne : ∀ e ∈ engs, e.text ≠ []) :
    (create_bilingual_lines chs engs).length = chs.length ∧
    ∀ (j : Nat) (c : FCue), chs[j]? = some c →
      (create_bilingual_lines chs engs)[j]? = some (
        match engs.find? (fun e =>
            decide (|fround (e.start_time - c.start_time)| < (1 : ℚ)/2) &&
            decide (|fround (e.end_time - c.end_time)| < (1 : ℚ)/2)) with
        | some e => dialogueHead c ++ chiStyle ++ c.text ++ "\\N".data ++ engStyle ++ e.text
        | none => dialogueHead c ++ chiStyle ++ c.text) := by
  constructor
  · simp [create_bilingual_lines]
  · intro j c hj
    unfold create_bilingual_lines
    rw [List.getElem?_map, hj]
    simp only [Option.map_some']
    congr 1
    unfold bilingualLine findEnglish
    cases hf : engs.find? (fun e =>
        decide (|fround (e.start_time - c.start_time)| < (1 : ℚ)/2) &&
        decide (|fround (e.end_time - c.end_time)| < (1 : ℚ)/2)) with
    | none => simp
    | some e =>
      have hmem : e ∈ engs := List.mem_of_find?_eq_some hf
      have hte := hne e hmem
      simp [hte]

set_option maxRecDepth 40000 in
theorem claim_C8_bilingual_alignment_witness :
    (create_bilingual_lines [⟨timeVal 0 0 1 0, timeVal 0 0 3 0, "ni hao".data⟩]
        [⟨timeVal 0 0 1 200, timeVal 0 0 3 100, "Hello world".data⟩]).length = 1 ∧
    (create_bilingual_lines [⟨timeVal 0 0 1 0, timeVal 0 0 3 0, "ni hao".data⟩]
        [⟨timeVal 0 0 1 200, timeVal 0 0 3 100, "Hello world".data⟩])[0]? =
      some (dialogueHead ⟨timeVal 0 0 1 0, timeVal 0 0 3 0, "ni hao".data⟩ ++ chiStyle ++
        "ni hao".data ++ "\\N".data ++ engStyle ++ "Hello world".data) := by
  have h := claim_C8_bilingual_alignment
    [⟨timeVal 0 0 1 0, timeVal 0 0 3 0, "ni hao".data⟩]
    [⟨timeVal 0 0 1 200, timeVal 0 0 3 100, "Hello world".data⟩] (by decide)
  refine ⟨h.1, ?_⟩
  have h2 := h.2 0 ⟨timeVal 0 0 1 0, timeVal 0 0 3 0, "ni hao".data⟩ (by rfl)
  rw [h2]
  rfl

end Reclipper
